import Mathlib

/-!
Verification development for the JsonPlayground repository.

Two components are embedded from the source:
  * the LINQ-style `Queryable` sequence library (src/unnamed/part_006);
  * the autocomplete suggestion engine (src/src/hooks/useAutocomplete.ts).

A `Queryable` snapshot is embedded as a `List`.  JavaScript values that
appear as sort keys are embedded as `JKey` (null/undefined collapsed to
`JKey.jnull`; numbers as `Int`, which excludes NaN; `localeCompare` is
modelled as a fixed total order on strings, a legitimate collation).
`Array.prototype.sort` is required by ES2019 to be stable; it is modelled
as a stable insertion sort (for inconsistent comparators ECMA-262 leaves
the result implementation-defined, and the model fixes one behaviour).
-/

namespace Queryable

/-- Sort keys produced by key selectors, as a JavaScript value model. -/
inductive JKey where
  | jnull
  | jnum (n : Int)
  | jstr (s : String)
deriving DecidableEq

/-- Decimal digit-string value, `none` when not a non-empty digit string. -/
def jsDigits (cs : List Char) : Option Nat :=
  if cs ≠ [] ∧ cs.all Char.isDigit then
    some (cs.foldl (fun n c => n * 10 + (c.toNat - '0'.toNat)) 0)
  else none

/-- JavaScript `Number(string)` on the model, for optional-sign decimal
integer strings; other strings behave as NaN (`none`); the empty string
coerces to 0 as in JS. -/
def jsNumOfString (s : String) : Option Int :=
  match s.data with
  | [] => some 0
  | '-' :: cs => (jsDigits cs).map (fun n => -(n : Int))
  | cs => (jsDigits cs).map (fun n => (n : Int))

/-- JavaScript `a > b` on the key model: number/number relational, string/string
lexicographic, mixed number/string via `Number(string)` coercion where a
non-numeric string behaves like NaN (every comparison false). -/
def jsGT : JKey → JKey → Bool
  | JKey.jnum a, JKey.jnum b => a > b
  | JKey.jstr s, JKey.jstr t => t < s
  | JKey.jnum a, JKey.jstr t =>
    match jsNumOfString t with
    | some b => a > b
    | none => false
  | JKey.jstr s, JKey.jnum b =>
    match jsNumOfString s with
    | some a => a > b
    | none => false
  | _, _ => false

/-- Embeds `Queryable._compare` (src/unnamed/part_006 lines 51-57):
identical values compare 0, null/undefined sorts first, string pairs by
collation, otherwise by relational `>`. -/
def jsCompare (a b : JKey) : Int :=
  if a = b then 0
  else if a = JKey.jnull then -1
  else if b = JKey.jnull then 1
  else
    match a, b with
    | JKey.jstr s, JKey.jstr t => if s < t then -1 else 1
    | _, _ => if jsGT a b then 1 else -1

/-- One pass of stable insertion: the new element is placed before the first
element it compares strictly less than, hence after every element whose key
compares equal.  Used to model JavaScript's stable `Array.prototype.sort`. -/
def insertCmp (cmp : α → α → Int) (x : α) : List α → List α
  | [] => [x]
  | y :: l => if cmp x y < 0 then x :: y :: l else y :: insertCmp cmp x l

/-- Stable sort by a JavaScript comparator (models `copy.sort(comparator)`). -/
def sortCmp (cmp : α → α → Int) (l : List α) : List α :=
  l.foldl (fun acc x => insertCmp cmp x acc) []

/-- The comparator `(a, b) => _compare(ks(a), ks(b))` used by `OrderBy`. -/
def kcmp (k : α → JKey) (a b : α) : Int := jsCompare (k a) (k b)

/-- "At most" in comparator terms: the relation the sorted output satisfies
between adjacent elements. -/
def leCmp (cmp : α → α → Int) (a b : α) : Prop := cmp a b ≤ 0

/-- Embeds `Queryable.OrderBy` (src/unnamed/part_006 lines 76-81): copy the
snapshot and stably sort it by `_compare` on the selected keys. -/
def OrderBy (k : α → JKey) (l : List α) : List α :=
  sortCmp (fun a b => jsCompare (k a) (k b)) l

/-- Embeds `Queryable.ThenBy` (src/unnamed/part_006 lines 90-95): the body is
a verbatim duplicate of `OrderBy` — a fresh independent stable sort. -/
def ThenBy (k : α → JKey) (l : List α) : List α :=
  sortCmp (fun a b => jsCompare (k a) (k b)) l

/-- The `(possibly filtered)` sequence used by `Single`/`SingleOrDefault`. -/
def filteredBy (l : List α) : Option (α → Bool) → List α
  | some p => l.filter p
  | none => l

/-- Embeds `Queryable.Single` (src/unnamed/part_006 lines 380-384): filter by
the optional predicate, throw unless exactly one element remains. -/
def Single (l : List α) (pred : Option (α → Bool)) : Except String α :=
  let filtered := filteredBy l pred
  if h : filtered.length = 1 then
    Except.ok (filtered.get ⟨0, by omega⟩)
  else
    Except.error "Sequence contains more than one element or no element."

/-- Embeds `Queryable.SingleOrDefault` (src/unnamed/part_006 lines 386-391):
default on empty, throw on more than one, otherwise the unique element. -/
def SingleOrDefault (l : List α) (d : α) (pred : Option (α → Bool)) :
    Except String α :=
  let filtered := filteredBy l pred
  if h0 : filtered.length = 0 then Except.ok d
  else if h : filtered.length > 1 then
    Except.error "Sequence contains more than one element."
  else Except.ok (filtered.get ⟨0, by omega⟩)

/-- Modelled from the spec's words only for comparison in a refinement claim:
"standard LINQ multi-key semantics" for `OrderBy(k1).ThenBy(k2)` — one stable
sort by the lexicographic comparator, primary key `k1`, ties broken by `k2`. -/
def linqOrderByThenBy (k1 k2 : α → JKey) (l : List α) : List α :=
  sortCmp
    (fun a b =>
      let c := jsCompare (k1 a) (k1 b)
      if c = 0 then jsCompare (k2 a) (k2 b) else c) l

/-- One step of the index construction inside `Join` (lines 202-208): fetch
the key's group (or start a fresh one, registered in insertion order) and push
the inner element at its end.  JS `Map` preserves key insertion order. -/
def insertGroup [DecidableEq K] (k : K) (i : β) :
    List (K × List β) → List (K × List β)
  | [] => [(k, [i])]
  | (k2, g) :: rest =>
      if k2 = k then (k2, g ++ [i]) :: rest else (k2, g) :: insertGroup k i rest

/-- The hash index over the inner sequence keyed by `innerKey`. -/
def buildIndex [DecidableEq K] (iKey : β → K) (inner : List β) :
    List (K × List β) :=
  inner.foldl (fun m i => insertGroup (iKey i) i m) []

/-- `map.get(k)`: `none` models a key absent from the index. -/
def lookupGroup [DecidableEq K] (m : List (K × List β)) (k : K) :
    Option (List β) :=
  (m.find? (fun e => decide (e.1 = k))).map (fun e => e.2)

/-- Embeds `Queryable.Join` (src/unnamed/part_006 lines 192-216): build the
index over `inner`, then for each outer element in order emit `res o i` for
every matching inner element; outers with no index entry emit nothing. -/
def Join [DecidableEq K] (l : List α) (inner : List β) (oKey : α → K)
    (iKey : β → K) (res : α → β → γ) : List γ :=
  let m := buildIndex iKey inner
  l.flatMap fun o =>
    match lookupGroup m (oKey o) with
    | some ms => ms.map (res o)
    | none => []

/-- Modelled from the spec's words only for comparison in a refinement claim:
the nested-loop inner-join — `result(o, i)` over every pair with equal keys,
outer order then inner order. -/
def nestedLoopJoin [DecidableEq K] (l : List α) (inner : List β)
    (oKey : α → K) (iKey : β → K) (res : α → β → γ) : List γ :=
  l.flatMap fun o =>
    (inner.filter fun i => decide (iKey i = oKey o)).map (res o)

/-- ECMAScript `Array.prototype.slice(start, end)` on the list model:
negative indices count from the end of the array, out-of-range clamps. -/
def jsSlice (l : List α) (start : Int) (stop : Option Int) : List α :=
  let len : Int := l.length
  let k := if start < 0 then max (len + start) 0 else min start len
  let e :=
    match stop with
    | none => len
    | some e0 => if e0 < 0 then max (len + e0) 0 else min e0 len
  (l.take e.toNat).drop k.toNat

/-- Embeds the loop of `Queryable.Chunk` (src/unnamed/part_006 lines 262-268)
with explicit fuel: each iteration with `i < length` pushes `slice(i, i+size)`
and advances `i` by `size`.  `none` means the fuel ran out before the loop
condition failed, which is how the embedding renders non-termination. -/
def chunkFuel (l : List α) (size : Int) : Nat → Int → Option (List (List α))
  | 0, _ => none
  | fuel + 1, i =>
      if i < (l.length : Int) then
        match chunkFuel l size fuel (i + size) with
        | some rest => some (jsSlice l i (some (i + size)) :: rest)
        | none => none
      else some []

/-- `Queryable.Chunk` at the canonical fuel (sufficient whenever `size ≥ 1`,
since the loop index then advances by at least 1 per iteration). -/
def Chunk (l : List α) (size : Int) : Option (List (List α)) :=
  chunkFuel l size (l.length + 1) 0

/-- A heap of array snapshots.  A `Queryable` handle is an index into the
heap; `new Queryable(arr)` appends a snapshot, returning a fresh handle. -/
abbrev SnapHeap (α : Type _) := List (List α)

/-- A representative closed set of `Queryable` operators for the framing
claim, including every operator that can return `this` unchanged
(`DefaultIfEmpty`, `SkipLast`). -/
inductive Op (α : Type _) where
  | opWhere (p : α → Bool)
  | opSelect (f : α → α)
  | opOrderBy (k : α → JKey)
  | opSkip (n : Int)
  | opTake (n : Int)
  | opAppend (x : α)
  | opPrepend (x : α)
  | opReverse
  | opConcat (other : List α)
  | opDefaultIfEmpty (d : α)
  | opSkipLast (n : Int)

/-- Applying an operator to the handle `h` over `heap`.  Every branch mirrors
the source operator body: `new Queryable(...)` appends a fresh snapshot and
returns the fresh handle; `return this` (`DefaultIfEmpty` on a non-empty
sequence, line 251; `SkipLast` with `n <= 0`, line 409) returns `h` with the
heap untouched. -/
def Op.apply (op : Op α) (heap : SnapHeap α) (h : Nat) : SnapHeap α × Nat :=
  let arr := heap.getD h []
  let fresh := fun (a : List α) => (heap ++ [a], heap.length)
  match op with
  | Op.opWhere p => fresh (arr.filter p)
  | Op.opSelect f => fresh (arr.map f)
  | Op.opOrderBy k => fresh (OrderBy k arr)
  | Op.opSkip n => fresh (jsSlice arr n none)
  | Op.opTake n => fresh (jsSlice arr 0 (some n))
  | Op.opAppend x => fresh (arr ++ [x])
  | Op.opPrepend x => fresh (x :: arr)
  | Op.opReverse => fresh arr.reverse
  | Op.opConcat other => fresh (arr ++ other)
  | Op.opDefaultIfEmpty d => if arr.length = 0 then fresh [d] else (heap, h)
  | Op.opSkipLast n => if n ≤ 0 then (heap, h) else fresh (jsSlice arr 0 (some (-n)))

/-- `Queryable.ToArray` (lines 184-186): a copy of the handle's snapshot. -/
def ToArray (heap : SnapHeap α) (h : Nat) : List α := heap.getD h []

end Queryable

-- ===== AUTOCOMPLETE ENGINE DEFINITIONS =====

namespace Autocomplete

/-!
Embedding of the autocomplete engine (src/src/hooks/useAutocomplete.ts).

JSON documents are `JVal`; JavaScript `undefined` is `Option.none` wherever a
possibly-undefined value flows (so `Option JVal` is "a JS value or
undefined").  Buffer text and string scraps are `List Char`; the suggestion
records keep `String` fields as in the source.  `toLowerCase` is modelled
ASCII-wise via `Char.toLower`.  The source's regular expressions are embedded
as syntax trees (`Re`) interpreted by a standard backtracking matcher with
JavaScript semantics: leftmost match start, left-biased alternation, greedy
repetition and option, repetition stops on empty iterations, backreferences
match the captured text.  The matcher carries fuel for structural recursion;
`matchFuel` exceeds the recursion depth, which is bounded by
`(|s|+1)·(size+1)` because every call strictly decreases the pair
(remaining input, pattern size) lexicographically.
-/

/-- JSON-like document values, as produced by `JSON.parse`. -/
inductive JVal where
  | jnull
  | jbool (b : Bool)
  | jnum (n : Int)
  | jstr (s : String)
  | jarr (elems : List JVal)
  | jobj (fields : List (String × JVal))

/-- `AutocompleteSuggestion` (lines 3-10). -/
structure AutocompleteSuggestion where
  path : String
  value : Option JVal
  type : String
  displayPath : String
  insertPath : Option String := none

/-- `getType` (lines 12-16): `null` check, `Array.isArray`, then `typeof`;
`none` is JS `undefined`. -/
def getType : Option JVal → String
  | none => "undefined"
  | some JVal.jnull => "null"
  | some (JVal.jarr _) => "array"
  | some (JVal.jbool _) => "boolean"
  | some (JVal.jnum _) => "number"
  | some (JVal.jstr _) => "string"
  | some (JVal.jobj _) => "object"

/-- `typeof v === 'object' && v !== null` (recursion guard in `getAllPaths`). -/
def isObjLike : JVal → Bool
  | JVal.jarr _ => true
  | JVal.jobj _ => true
  | _ => false

/-- The guard of the resolution loop (line 32): the current value is an
indexable object or array. -/
def isObjVal : Option JVal → Bool
  | some (JVal.jarr _) => true
  | some (JVal.jobj _) => true
  | _ => false

/-- Whether a JSON object. -/
def isJObj : JVal → Bool
  | JVal.jobj _ => true
  | _ => false

/-- Fields of an object value, else empty. -/
def objFieldsOf : JVal → List (String × JVal)
  | JVal.jobj fs => fs
  | _ => []

/-- Prefix test on character lists (JS `String.prototype.startsWith`). -/
def lcStartsWith : List Char → List Char → Bool
  | [], _ => true
  | _ :: _, [] => false
  | c :: cs, d :: ds => c == d && lcStartsWith cs ds

/-- Split on a character class, keeping empty pieces, as JS
`String.prototype.split` with a single-character-class regex. -/
def lcSplit (p : Char → Bool) : List Char → List (List Char)
  | [] => [[]]
  | c :: t =>
      if p c then [] :: lcSplit p t
      else
        match lcSplit p t with
        | [] => [[c]]
        | h :: r => (c :: h) :: r

/-- Numeric value of a digit string (JS `Number(p)` for `/^\d+$/` inputs). -/
def digitsVal (cs : List Char) : Nat :=
  cs.foldl (fun n c => n * 10 + (c.toNat - '0'.toNat)) 0

/-- JS object property lookup by key. -/
def lookupField (fs : List (String × JVal)) (k : List Char) : Option JVal :=
  (fs.find? (fun e => decide (e.1.data = k))).map (fun e => e.2)

/-- One JS member access `current[p]` on an object or array (the loop body of
`getValueAtPathFromObj`, lines 33-37): numeric segments index arrays (or
object keys through `Number(p)` canonicalisation), `length` of an array is
its length; other array properties are modelled as `undefined`. -/
def jsIndex : JVal → List Char → Option JVal
  | JVal.jarr xs, p =>
      if !p.isEmpty && p.all Char.isDigit then xs[digitsVal p]?
      else if p = "length".data then some (JVal.jnum xs.length)
      else none
  | JVal.jobj fs, p =>
      if !p.isEmpty && p.all Char.isDigit then
        lookupField fs (Nat.repr (digitsVal p)).data
      else lookupField fs p
  | _, _ => none

/-- `current[p]` with raw JavaScript semantics: a member access on `null` or
`undefined` throws a `TypeError`; on other primitives it yields `undefined`
(string index/length properties are not modelled: the engine's guard keeps
primitives from ever being indexed). -/
def jsMemberE : Option JVal → List Char → Except String (Option JVal)
  | none, _ => Except.error "TypeError: cannot read properties of undefined"
  | some JVal.jnull, _ => Except.error "TypeError: cannot read properties of null"
  | some (JVal.jbool _), _ => Except.ok none
  | some (JVal.jnum _), _ => Except.ok none
  | some (JVal.jstr _), _ => Except.ok none
  | some v, p => Except.ok (jsIndex v p)

/-- `path.split(/\.|\[|\]/).filter(Boolean)` (line 29). -/
def splitPath (s : List Char) : List (List Char) :=
  (lcSplit (fun c => c == '.' || c == '[' || c == ']') s).filter (fun p => !p.isEmpty)

/-- The resolution loop of `getValueAtPathFromObj` (lines 30-38): before each
member access, a type-mismatching current value short-circuits to
`undefined`. -/
def resolveParts : Option JVal → List (List Char) → Option JVal
  | cur, [] => cur
  | cur, p :: ps =>
      if !isObjVal cur then none
      else
        match cur with
        | some v => resolveParts (jsIndex v p) ps
        | none => none

/-- `resolveParts` against raw JS member-access semantics (`jsMemberE`): used
to state that the guard makes the loop total. -/
def resolvePartsE : Option JVal → List (List Char) → Except String (Option JVal)
  | cur, [] => Except.ok cur
  | cur, p :: ps =>
      if !isObjVal cur then Except.ok none
      else
        match jsMemberE cur p with
        | Except.ok v => resolvePartsE v ps
        | Except.error e => Except.error e

/-- `getValueAtPathFromObj` (lines 27-40). -/
def getValueAtPathFromObj (obj : Option JVal) (path : List Char) : Option JVal :=
  if path.isEmpty then obj else resolveParts obj (splitPath path)

/-- `getValueAtPathFromObj` over raw member-access semantics. -/
def getValueAtPathFromObjE (obj : Option JVal) (path : List Char) :
    Except String (Option JVal) :=
  if path.isEmpty then Except.ok obj else resolvePartsE obj (splitPath path)

/-- `path.replace(/^data\.?/, '')` (line 21). -/
def stripData (path : List Char) : List Char :=
  if lcStartsWith "data".data path then
    match path.drop 4 with
    | '.' :: t => t
    | r => r
  else path

/-- `getValueAtPath` (lines 18-24): resolve a `data…` path against the root. -/
def getValueAtPath (root : Option JVal) (path : List Char) : Option JVal :=
  if path.isEmpty || path == "data".data then root
  else
    let rest := stripData path
    if rest.isEmpty then root else getValueAtPathFromObj root rest

/-- `getValueAtPath` over raw member-access semantics. -/
def getValueAtPathE (root : Option JVal) (path : List Char) :
    Except String (Option JVal) :=
  if path.isEmpty || path == "data".data then Except.ok root
  else
    let rest := stripData path
    if rest.isEmpty then Except.ok root else getValueAtPathFromObjE root rest

/-- `getKeysSuggestions` (lines 42-63): immediate keys of an object value,
case-insensitively filtered by the partially typed key. -/
def getKeysSuggestions (value : Option JVal) (partKey : List Char) :
    List AutocompleteSuggestion :=
  match value with
  | some (JVal.jobj fs) =>
      let keys := fs.map (fun e => e.1)
      let lower := partKey.map Char.toLower
      let filtered :=
        if !partKey.isEmpty then
          keys.filter (fun k => lcStartsWith lower (k.data.map Char.toLower))
        else keys
      filtered.map fun key =>
        { path := key, value := lookupField fs key.data,
          type := getType (lookupField fs key.data), displayPath := key }
  | _ => []

/-- The six synthetic entries pushed for every array node (lines 112-148). -/
def arrMethodSuggs (pre : String) (len : Nat) : List AutocompleteSuggestion :=
  [{ path := pre ++ ".length", value := some (JVal.jnum len), type := "number",
     displayPath := "length" },
   { path := pre ++ ".map()", value := some (JVal.jstr "function"),
     type := "method", displayPath := "map()" },
   { path := pre ++ ".filter()", value := some (JVal.jstr "function"),
     type := "method", displayPath := "filter()" },
   { path := pre ++ ".find()", value := some (JVal.jstr "function"),
     type := "method", displayPath := "find()" },
   { path := pre ++ ".reduce()", value := some (JVal.jstr "function"),
     type := "method", displayPath := "reduce()" },
   { path := pre ++ ".forEach()", value := some (JVal.jstr "function"),
     type := "method", displayPath := "forEach()" }]

mutual

/-- `getAllPaths` (lines 105-181): document path index by depth-first walk;
arrays also get synthetic method entries and indexed entries for the first
three elements only (`slice(0, 3)`, realised by the index bound in
`arrIndexedPaths`). -/
def getAllPaths : JVal → String → List AutocompleteSuggestion
  | JVal.jarr xs, pre => arrMethodSuggs pre xs.length ++ arrIndexedPaths pre 0 xs
  | JVal.jobj fs, pre => objPaths pre fs
  | _, _ => []

/-- Indexed entries `prefix[i]` for `i < 3`, each followed by its subtree. -/
def arrIndexedPaths (pre : String) (i : Nat) : List JVal → List AutocompleteSuggestion
  | [] => []
  | item :: rest =>
      if i < 3 then
        ({ path := pre ++ "[" ++ toString i ++ "]", value := some item,
           type := getType (some item),
           displayPath := "[" ++ toString i ++ "]" } ::
         (if isObjLike item then
            getAllPaths item (pre ++ "[" ++ toString i ++ "]")
          else [])) ++
        arrIndexedPaths pre (i + 1) rest
      else []

/-- Entries for each object field, each followed by its subtree. -/
def objPaths (pre : String) : List (String × JVal) → List AutocompleteSuggestion
  | [] => []
  | (key, v) :: rest =>
      ({ path := pre ++ "." ++ key, value := some v, type := getType (some v),
         displayPath := key } ::
       (if isObjLike v then getAllPaths v (pre ++ "." ++ key) else [])) ++
      objPaths pre rest

end

/-- The memoised `allPaths` (lines 191-197): an absent document indexes to
nothing (`getAllPaths` itself cannot throw). -/
def allPathsOf (doc : Option JVal) : List AutocompleteSuggestion :=
  match doc with
  | none => []
  | some v => getAllPaths v "data"

/-- Regular-expression syntax trees for the source's literal patterns. -/
inductive Re where
  | eps
  | chr (c : Char)
  | cls (p : Char → Bool)
  | cat (a b : Re)
  | alt (a b : Re)
  | star (a : Re)
  | opt (a : Re)
  | grp (i : Nat) (a : Re)
  | bref (i : Nat)
  | eos

/-- Capture environment: latest binding of each group index wins. -/
abbrev Caps := List (Nat × List Char)

def capGet (caps : Caps) (i : Nat) : Option (List Char) :=
  (caps.find? (fun e => e.1 == i)).map (fun e => e.2)

/-- Captured group text, with the JS destructuring default `''` for an
unset group. -/
def capStr (caps : Caps) (i : Nat) : List Char := (capGet caps i).getD []

/-- Consume a literal prefix (backreference matching). -/
def stripPre : List Char → List Char → Option (List Char)
  | [], s => some s
  | _ :: _, [] => none
  | c :: cs, d :: ds => if c == d then stripPre cs ds else none

/-- Backtracking matcher: all ways to match a prefix of `s`, most-preferred
first, under JavaScript semantics (left-biased alternation, greedy `*`/`?`,
repetition must consume, backreference matches the captured text, unset
backreference matches the empty string).  The fuel only enables structural
recursion; `matchFuel` always suffices, since every recursive call strictly
decreases (remaining input length, pattern size) lexicographically. -/
def matchList : Nat → Re → List Char → Caps → List (List Char × Caps)
  | 0, _, _, _ => []
  | fuel + 1, re, s, caps =>
    match re with
    | Re.eps => [(s, caps)]
    | Re.chr c =>
        match s with
        | [] => []
        | d :: t => if d == c then [(t, caps)] else []
    | Re.cls p =>
        match s with
        | [] => []
        | d :: t => if p d then [(t, caps)] else []
    | Re.eos => if s.isEmpty then [(s, caps)] else []
    | Re.bref i =>
        match stripPre (capStr caps i) s with
        | some t => [(t, caps)]
        | none => []
    | Re.alt a b => matchList fuel a s caps ++ matchList fuel b s caps
    | Re.opt a => matchList fuel a s caps ++ [(s, caps)]
    | Re.grp i a =>
        (matchList fuel a s caps).map fun r =>
          (r.1, (i, s.take (s.length - r.1.length)) :: r.2)
    | Re.cat a b =>
        (matchList fuel a s caps).flatMap fun r => matchList fuel b r.1 r.2
    | Re.star a =>
        (((matchList fuel a s caps).filter
            (fun r => r.1.length < s.length)).flatMap
          fun r => matchList fuel (Re.star a) r.1 r.2) ++ [(s, caps)]

/-- Pattern size, for the fuel bound. -/
def reSize : Re → Nat
  | Re.cat a b => reSize a + reSize b + 1
  | Re.alt a b => reSize a + reSize b + 1
  | Re.star a => reSize a + 1
  | Re.opt a => reSize a + 1
  | Re.grp _ a => reSize a + 1
  | _ => 1

/-- Fuel exceeding the matcher's recursion depth. -/
def matchFuel (re : Re) (s : List Char) : Nat := (s.length + 1) * (reSize re + 1)

/-- `text.match(re)` for an end-anchored pattern: try successive start
positions left to right (leftmost match), returning the matched suffix (the
whole match, since the pattern is `$`-anchored) and its captures. -/
def searchRe (re : Re) : List Char → Option (List Char × Caps)
  | [] =>
      match matchList (matchFuel re []) re [] [] with
      | r :: _ => some ([], r.2)
      | [] => none
  | s@(_ :: t) =>
      match matchList (matchFuel re s) re s [] with
      | r :: _ => some (s, r.2)
      | [] => searchRe re t

def rstr (s : String) : Re := s.data.foldr (fun c r => Re.cat (Re.chr c) r) Re.eps

def rcat (rs : List Re) : Re := rs.foldr Re.cat Re.eps

def rplus (p : Char → Bool) : Re := Re.cat (Re.cls p) (Re.star (Re.cls p))

/-- `\w`. -/
def wordChar (c : Char) : Bool := c.isAlpha || c.isDigit || c == '_'

/-- `[a-zA-Z_$]`. -/
def idStartChar (c : Char) : Bool := c.isAlpha || c == '_' || c == '$'

/-- `[\w$]`. -/
def idChar (c : Char) : Bool := wordChar c || c == '$'

/-- `\s` (common whitespace). -/
def wsChar (c : Char) : Bool := c == ' ' || c == '\t' || c == '\n' || c == '\r'

/-- `[\w.]`. -/
def wordDotChar (c : Char) : Bool := wordChar c || c == '.'

/-- `[^"']`. -/
def notQuoteChar (c : Char) : Bool := !(c == '"') && !(c == '\'')

/-- `(data(?:\.[a-zA-Z_$][\w$]*|\[\d+\])*)` — group 1 of every context
pattern. -/
def dataPathRe : Re :=
  Re.grp 1 (Re.cat (rstr "data")
    (Re.star (Re.alt
      (Re.cat (Re.chr '.') (Re.cat (Re.cls idStartChar) (Re.star (Re.cls idChar))))
      (Re.cat (Re.chr '[') (Re.cat (rplus Char.isDigit) (Re.chr ']'))))))

/-- `/\/\s*$/` (line 204). -/
def snippetRe : Re := rcat [Re.chr '/', Re.star (Re.cls wsChar), Re.eos]

/-- The single-parameter callback pattern (line 216). -/
def singleParamRe : Re :=
  rcat [dataPathRe, Re.chr '.',
    Re.grp 2 (Re.alt (rstr "map") (Re.alt (rstr "filter")
      (Re.alt (rstr "find") (Re.alt (rstr "forEach") (rstr "flatMap"))))),
    Re.star (Re.cls wsChar), Re.chr '(', Re.star (Re.cls wsChar),
    Re.grp 3 (rplus wordChar), Re.star (Re.cls wsChar), rstr "=>",
    Re.star (Re.cls wsChar), Re.bref 3, Re.chr '.',
    Re.grp 4 (Re.star (Re.cls wordDotChar)), Re.eos]

/-- The reduce callback pattern (line 219). -/
def reduceRe : Re :=
  rcat [dataPathRe, rstr ".reduce", Re.star (Re.cls wsChar), Re.chr '(',
    Re.star (Re.cls wsChar), Re.chr '(', Re.star (Re.cls wsChar),
    rplus wordChar, Re.star (Re.cls wsChar), Re.chr ',',
    Re.star (Re.cls wsChar), Re.grp 2 (rplus wordChar),
    Re.star (Re.cls wsChar), Re.chr ')', Re.star (Re.cls wsChar), rstr "=>",
    Re.star (Re.cls wsChar), Re.bref 2, Re.chr '.',
    Re.grp 3 (Re.star (Re.cls wordDotChar)), Re.eos]

/-- The sort comparator callback pattern (line 222). -/
def sortRe : Re :=
  rcat [dataPathRe, rstr ".sort", Re.star (Re.cls wsChar), Re.chr '(',
    Re.star (Re.cls wsChar), Re.chr '(', Re.star (Re.cls wsChar),
    Re.grp 2 (rplus wordChar), Re.star (Re.cls wsChar), Re.chr ',',
    Re.star (Re.cls wsChar), Re.grp 3 (rplus wordChar),
    Re.star (Re.cls wsChar), Re.chr ')', Re.star (Re.cls wsChar), rstr "=>",
    Re.star (Re.cls wsChar), Re.grp 4 (Re.alt (Re.bref 2) (Re.bref 3)),
    Re.chr '.', Re.grp 5 (Re.star (Re.cls wordDotChar)), Re.eos]

/-- The bracket-notation pattern (line 283). -/
def bracketRe : Re :=
  rcat [dataPathRe, Re.chr '[',
    Re.grp 2 (Re.alt (Re.chr '"') (Re.chr '\'')),
    Re.opt (Re.grp 3 (Re.star (Re.cls notQuoteChar))), Re.eos]

/-- The dot-notation pattern (line 342). -/
def dotRe : Re :=
  rcat [dataPathRe, Re.opt (Re.chr '.'),
    Re.opt (Re.grp 2 (Re.cat (Re.cls idStartChar) (Re.star (Re.cls idChar)))),
    Re.eos]

/-- The hook state set by `findSuggestions`' setters; fields the source does
not set in a branch stay at their previous values (notably `suggestions`
stays stale when only `setIsOpen(false)` runs). -/
structure SuggestState where
  isOpen : Bool := false
  suggestions : List AutocompleteSuggestion := []
  selectedIndex : Nat := 0
  triggerStart : Nat := 0
  triggerEnd : Nat := 0
  cbRange : Option (Nat × Nat) := none

/-- `CODE_SNIPPETS` (lines 77-103). -/
def CODE_SNIPPETS : List AutocompleteSuggestion :=
  [{ path := "Dump(data)", value := some JVal.jnull, type := "snippet",
     displayPath := "Dump(data) - show full JSON" },
   { path := "Dump(data.user)", value := some JVal.jnull, type := "snippet",
     displayPath := "Dump(data.user) - show user object" },
   { path := "Dump(Object.keys(data))", value := some JVal.jnull,
     type := "snippet", displayPath := "Object.keys(data) - top-level keys" },
   { path := "Dump(Object.entries(data))", value := some JVal.jnull,
     type := "snippet", displayPath := "Object.entries(data) - key/value pairs" },
   { path := "const titles = data.posts.map(p => p.title);\nDump(titles)",
     value := some JVal.jnull, type := "snippet",
     displayPath := "Map: get all post titles" },
   { path := "const items = data.posts.map(p => (\x7b id: p.id, title: p.title \x7d));\nDump(items)",
     value := some JVal.jnull, type := "snippet",
     displayPath := "Map: pick id and title from posts" },
   { path := "const names = data.posts.map((p, i) => `$\x7bi\x7d: $\x7bp.title\x7d`);\nDump(names)",
     value := some JVal.jnull, type := "snippet",
     displayPath := "Map: index + title" },
   { path := "const filtered = data.posts.filter(p => p.id > 0);\nDump(filtered)",
     value := some JVal.jnull, type := "snippet",
     displayPath := "Filter posts by id" },
   { path := "const found = data.posts.find(p => p.id === 1);\nDump(found)",
     value := some JVal.jnull, type := "snippet",
     displayPath := "Find post by id" },
   { path := "const first = data.posts[0];\nDump(first)",
     value := some JVal.jnull, type := "snippet",
     displayPath := "First item in array" },
   { path := "const count = data.posts.reduce((acc, p) => acc + 1, 0);\nDump(count)",
     value := some JVal.jnull, type := "snippet",
     displayPath := "Count items in array" },
   { path := "const sum = data.posts.reduce((acc, p) => acc + (p.id ?? 0), 0);\nDump(sum)",
     value := some JVal.jnull, type := "snippet",
     displayPath := "Sum numeric field (e.g. id)" },
   { path := "const sorted = [...data.posts].sort((a, b) => (a.id ?? 0) - (b.id ?? 0));\nDump(sorted)",
     value := some JVal.jnull, type := "snippet",
     displayPath := "Sort array by id" },
   { path := "const byTitle = [...data.posts].sort((a, b) => (a.title || \"\").localeCompare(b.title || \"\"));\nDump(byTitle)",
     value := some JVal.jnull, type := "snippet",
     displayPath := "Sort array by title" },
   { path := "Dump(data.user?.name)", value := some JVal.jnull,
     type := "snippet", displayPath := "Safe access: user name" },
   { path := "Dump(data.settings?.theme)", value := some JVal.jnull,
     type := "snippet", displayPath := "Safe access: nested setting" },
   { path := "Dump(JSON.stringify(data, null, 2))", value := some JVal.jnull,
     type := "snippet", displayPath := "Pretty-print JSON string" },
   { path := "const flat = data.posts.flatMap(p => [p.id, p.title]);\nDump(flat)",
     value := some JVal.jnull, type := "snippet",
     displayPath := "FlatMap: flatten id + title" }]

/-- JavaScript truthiness of the document (`if (callbackMatch && jsonData)`). -/
def jsTruthy : Option JVal → Bool
  | none => false
  | some JVal.jnull => false
  | some (JVal.jbool b) => b
  | some (JVal.jnum n) => !(n == 0)
  | some (JVal.jstr s) => !(s == "")
  | some (JVal.jarr _) => true
  | some (JVal.jobj _) => true

/-- The three callback patterns in source priority (lines 215-230): returns
`(arrayPath, afterParam)` of the first that matches. -/
def cbParams (before : List Char) : Option (List Char × List Char) :=
  match searchRe singleParamRe before with
  | some (_, caps) => some (capStr caps 1, capStr caps 4)
  | none =>
      match searchRe reduceRe before with
      | some (_, caps) => some (capStr caps 1, capStr caps 3)
      | none =>
          match searchRe sortRe before with
          | some (_, caps) => some (capStr caps 1, capStr caps 5)
          | none => none

/-- Split of the last `.` (JS `lastIndexOf('.')` + two slices). -/
def lastDotSplit (s : List Char) : Option (List Char × List Char) :=
  match s.reverse.span (fun c => !(c == '.')) with
  | (_, []) => none
  | (revAfter, _ :: revBefore) => some (revBefore.reverse, revAfter.reverse)

/-- Base path and partial key of the callback member expression
(lines 240-255). -/
def splitAfterParam (afterParam : List Char) : List Char × List Char :=
  if afterParam.getLast? == some '.' then (afterParam.dropLast, [])
  else
    match lastDotSplit afterParam with
    | none => ([], afterParam)
    | some (b, p) => (b, p)

/-- Ordered set insertion (JS `Set` preserves insertion order). -/
def insertKey (acc : List String) (k : String) : List String :=
  if k ∈ acc then acc else acc ++ [k]

/-- The callback-parameter computation (lines 232-280) producing the state
update when it yields at least one candidate; `none` falls through to the
bracket/dot contexts exactly as the source's nested `if`s do. -/
def callbackResult (doc : Option JVal) (st : SuggestState) (cursor : Nat)
    (arrayPath afterParam : List Char) : Option SuggestState :=
  match getValueAtPath doc arrayPath with
  | some (JVal.jarr xs) =>
      if xs.length > 0 then
        match (xs.take 10).filter isJObj with
        | [] => none
        | first :: more =>
            let elements := first :: more
            let mergedKeys := elements.foldl
              (fun acc e => (objFieldsOf e).foldl
                (fun a kv => insertKey a kv.1) acc) []
            let basePath := (splitAfterParam afterParam).1
            let partKey := (splitAfterParam afterParam).2
            let subValue :=
              if !basePath.isEmpty then
                getValueAtPathFromObj (some first) basePath
              else some first
            let lower := partKey.map Char.toLower
            let keysSuggestions :=
              if basePath.isEmpty && !mergedKeys.isEmpty then
                (mergedKeys.filter
                  (fun k => lcStartsWith lower (k.data.map Char.toLower))).map
                  fun key =>
                    { path := key,
                      value := lookupField (objFieldsOf first) key.data,
                      type := getType (lookupField (objFieldsOf first) key.data),
                      displayPath := key }
              else getKeysSuggestions subValue partKey
            if keysSuggestions.length > 0 then
              some { st with
                suggestions := keysSuggestions, selectedIndex := 0,
                triggerStart := cursor - partKey.length, triggerEnd := cursor,
                cbRange := some (cursor - partKey.length, cursor),
                isOpen := true }
            else none
      else none
  | _ => none

/-- `^\[(\d+)\]` on the remaining path: the digits of a leading index. -/
def parseIdx (s : List Char) : Option (List Char) :=
  match s with
  | '[' :: rest =>
      match rest.span Char.isDigit with
      | (ds, ']' :: _) => if ds.isEmpty then none else some ds
      | _ => none
  | _ => none

/-- The filter of the dot-notation branch (lines 351-361). -/
def dotFilter (basePath partKey : List Char) (s : AutocompleteSuggestion) : Bool :=
  let p := s.path.data
  if !(lcStartsWith basePath p) then false
  else
    let remaining := p.drop basePath.length
    if !(remaining.head? == some '.') && !(remaining.head? == some '[') then false
    else
      let childPart := if remaining.head? == some '.' then remaining.tail else remaining
      let immediateChild := (lcSplit (fun c => c == '.' || c == '[') childPart).headD []
      if remaining.head? == some '.' then
        lcStartsWith (partKey.map Char.toLower) (immediateChild.map Char.toLower)
      else
        partKey.isEmpty || lcStartsWith ('[' :: partKey) remaining

/-- The filter of the bracket-notation branch (lines 289-300): like the dot
filter but matching a leading index against the raw partial key, falling back
to the identifier comparison when the index pattern fails. -/
def bracketFilter (basePath partKey : List Char) (s : AutocompleteSuggestion) : Bool :=
  let p := s.path.data
  if !(lcStartsWith basePath p) then false
  else
    let remaining := p.drop basePath.length
    if !(remaining.head? == some '.') && !(remaining.head? == some '[') then false
    else
      let childPart := if remaining.head? == some '.' then remaining.tail else remaining
      let immediateChild := (lcSplit (fun c => c == '.' || c == '[') childPart).headD []
      if remaining.head? == some '[' then
        match parseIdx remaining with
        | some ds => partKey.isEmpty || lcStartsWith partKey ds
        | none =>
            lcStartsWith (partKey.map Char.toLower) (immediateChild.map Char.toLower)
      else
        lcStartsWith (partKey.map Char.toLower) (immediateChild.map Char.toLower)

/-- Immediate-child dedup key and display of a filtered entry
(lines 364-377): first dot-segment, or the bracketed index; `none` models the
`return` that skips a `[`-entry without a leading index. -/
def keyDisplayOf (remaining : List Char) : Option (List Char × List Char) :=
  if remaining.head? == some '.' then
    let parts := lcSplit (fun c => c == '.' || c == '[') remaining.tail
    some (parts.headD [], parts.headD [])
  else
    match parseIdx remaining with
    | some ds => some ('[' :: ds ++ [']'], '[' :: ds ++ [']'])
    | none => none

/-- One step of the dot-branch dedup fold (lines 364-385). -/
def dotDedupStep (basePath : List Char)
    (acc : List (List Char × AutocompleteSuggestion))
    (s : AutocompleteSuggestion) :
    List (List Char × AutocompleteSuggestion) :=
  let remaining := s.path.data.drop basePath.length
  match keyDisplayOf remaining with
  | none => acc
  | some (key, dispP) =>
      if acc.any (fun e => e.1 == key) then acc
      else acc ++ [(key, { s with
        path := String.mk (basePath ++
          (if remaining.head? == some '[' then key else '.' :: key)),
        displayPath := String.mk dispP })]

/-- The dot-branch dedup (lines 363-385): first entry per immediate-child key
wins, its path rewritten to `basePath` plus the immediate segment. -/
def dotDedup (basePath : List Char) (filtered : List AutocompleteSuggestion) :
    List AutocompleteSuggestion :=
  (filtered.foldl (dotDedupStep basePath) []).map (fun e => e.2)

/-- Escape the active quote character inside a key (line 318). -/
def escapeQuote (q : Char) (s : List Char) : List Char :=
  s.flatMap fun c => if c == q then ['\\', c] else [c]

/-- The bracket-branch dedup (lines 302-327): as the dot dedup, but also
producing the quoted bracket-literal insertion text. -/
def bracketDedup (basePath : List Char) (quote : Char)
    (filtered : List AutocompleteSuggestion) : List AutocompleteSuggestion :=
  (filtered.foldl
    (fun (acc : List (List Char × AutocompleteSuggestion)) s =>
      let remaining := s.path.data.drop basePath.length
      match keyDisplayOf remaining with
      | none => acc
      | some (key, dispP) =>
          if acc.any (fun e => e.1 == key) then acc
          else
            let insertP :=
              if key.head? == some '[' then basePath ++ key
              else basePath ++ '[' :: quote :: (escapeQuote quote key ++ [quote, ']'])
            acc ++ [(key, { s with
              path := String.mk (basePath ++
                (if remaining.head? == some '[' then key else '.' :: key)),
              displayPath := String.mk dispP,
              insertPath := some (String.mk insertP) })]) []).map (fun e => e.2)

/-- The snippet branch update (lines 205-212). -/
def snippetUpdate (st : SuggestState) (cursor matchLen : Nat) : SuggestState :=
  { st with
    suggestions := CODE_SNIPPETS, selectedIndex := 0,
    triggerStart := cursor - matchLen, triggerEnd := cursor, isOpen := true }

/-- The bracket branch update (lines 284-339). -/
def bracketUpdate (allP : List AutocompleteSuggestion) (st : SuggestState)
    (cursor matchLen : Nat) (caps : Caps) : SuggestState :=
  let basePath := capStr caps 1
  let quote := (capStr caps 2).headD '"'
  let partKey := capStr caps 3
  let matchStart := cursor - matchLen
  let final := bracketDedup basePath quote (allP.filter (bracketFilter basePath partKey))
  if final.length > 0 then
    { st with
      suggestions := final, selectedIndex := 0,
      triggerStart := matchStart + basePath.length + 2 + partKey.length,
      triggerEnd := cursor, isOpen := true }
  else { st with isOpen := false }

/-- The dot branch update (lines 348-398). -/
def dotUpdate (allP : List AutocompleteSuggestion) (st : SuggestState)
    (cursor matchLen : Nat) (caps : Caps) : SuggestState :=
  let basePath := capStr caps 1
  let partKey := capStr caps 2
  let matchStart := cursor - matchLen
  let final := dotDedup basePath (allP.filter (dotFilter basePath partKey))
  if final.length > 0 then
    { st with
      suggestions := final, selectedIndex := 0,
      triggerStart := matchStart + basePath.length +
        (if !partKey.isEmpty then 1 else 0),
      triggerEnd := cursor, isOpen := true }
  else { st with isOpen := false }

/-- The whole callback-parameter context (lines 215-280): a state update when
one of the three patterns matches, the document is truthy and the sampled
elements yield candidates; `none` in every other case. -/
def callbackAttempt (doc : Option JVal) (st : SuggestState) (cursor : Nat)
    (before : List Char) : Option SuggestState :=
  match cbParams before, jsTruthy doc with
  | some (arrayPath, afterParam), true =>
      callbackResult doc st cursor arrayPath afterParam
  | _, _ => none

/-- `findSuggestions` (lines 199-399): clear the callback replace range, then
try the snippet, callback-parameter, bracket-notation and dot-notation
contexts in that order.  The callback context falls through to bracket/dot
when it produces no candidates; snippet and bracket always return; a failing
dot pattern (or no dot candidates) closes the list. -/
def findSuggestions (doc : Option JVal) (code : String) (cursor : Nat)
    (st0 : SuggestState) : SuggestState :=
  let before := code.data.take cursor
  let allP := allPathsOf doc
  let st := { st0 with cbRange := none }
  match searchRe snippetRe before with
  | some (suf, _) => snippetUpdate st cursor suf.length
  | none =>
    match callbackAttempt doc st cursor before with
    | some st2 => st2
    | none =>
        match searchRe bracketRe before with
        | some (suf, caps) => bracketUpdate allP st cursor suf.length caps
        | none =>
            match searchRe dotRe before with
            | none => { st with isOpen := false }
            | some (suf, caps) => dotUpdate allP st cursor suf.length caps

-- Concrete documents used to instantiate the engine claims.

/-- A document whose single top-level value is a non-object array:
`\x7b "a": [1] \x7d`. -/
def doc₀ : Option JVal := some (JVal.jobj [("a", JVal.jarr [JVal.jnum 1])])

/-- The reference document of the specification:
`\x7b "user": \x7b "name": "John" \x7d, "posts": [\x7b "id": 1, "title": "A" \x7d, \x7b "id": 2, "title": "B" \x7d] \x7d`. -/
def refDoc : Option JVal :=
  some (JVal.jobj
    [("user", JVal.jobj [("name", JVal.jstr "John")]),
     ("posts", JVal.jarr
       [JVal.jobj [("id", JVal.jnum 1), ("title", JVal.jstr "A")],
        JVal.jobj [("id", JVal.jnum 2), ("title", JVal.jstr "B")]])])

/-- A document with a dotted key: `\x7b "a.b": 1 \x7d`. -/
def docB : Option JVal := some (JVal.jobj [("a.b", JVal.jnum 1)])

-- Specification-side definitions for the dot-notation candidate set (C5).
-- These follow the specification text, to be compared with the source-derived
-- `dotFilter`/`dotDedup` above.

/-- A character that cannot separate path segments. -/
def goodChar (c : Char) : Bool := !(c == '.') && !(c == '[') && !(c == ']')

/-- A key that renders as a single path segment. -/
def goodKeyB (k : String) : Bool := !k.data.isEmpty && k.data.all goodChar

/-- No duplicate keys (JavaScript object keys are unique). -/
def nodupB : List String → Bool
  | [] => true
  | k :: r => !(r.contains k) && nodupB r

mutual

/-- Documents whose object keys are unique single-segment keys: the class on
which the indexed path strings decompose unambiguously into segments. -/
def goodDoc : JVal → Bool
  | JVal.jobj fs => nodupB (fs.map (fun kv => kv.1)) && goodFields fs
  | JVal.jarr xs => goodElems xs
  | _ => true

def goodFields : List (String × JVal) → Bool
  | [] => true
  | (k, v) :: r => goodKeyB k && goodDoc v && goodFields r

def goodElems : List JVal → Bool
  | [] => true
  | v :: r => goodDoc v && goodElems r

end

/-- One segment of a base path matched by the context patterns'
`(data(?:\.[a-zA-Z_$][\w$]*|\[\d+\])*)` group: a `.key` member segment or a
`[digits]` index segment. -/
inductive PSeg where
  | key (k : String)
  | idx (ds : String)

def renderSeg : PSeg → List Char
  | PSeg.key k => '.' :: k.data
  | PSeg.idx ds => '[' :: ds.data ++ [']']

def renderSegs (segs : List PSeg) : List Char := segs.flatMap renderSeg

/-- Segments the context patterns can produce: identifier keys and non-empty
digit runs. -/
def segGood : PSeg → Bool
  | PSeg.key k => goodKeyB k
  | PSeg.idx ds => !ds.data.isEmpty && ds.data.all Char.isDigit

/-- Partial keys the dot pattern's `([a-zA-Z_$][\w$]*)?` group can produce:
empty, or starting with a non-digit identifier character. -/
def pkOk (pk : List Char) : Bool :=
  pk.isEmpty || !(pk.headD ' ').isDigit

/-- Spec wording: the immediate-child key when `remaining` is exactly one more
path segment (`.seg`, or a bracketed index `[n]`), else `none`. -/
def oneSegKey (remaining : List Char) : Option (List Char) :=
  match remaining with
  | '.' :: seg =>
      if !seg.isEmpty && seg.all goodChar then some seg else none
  | '[' :: rest =>
      match rest.span Char.isDigit with
      | (ds, [']']) => if ds.isEmpty then none else some ('[' :: ds ++ [']'])
      | _ => none
  | _ => none

/-- Spec wording: an indexed path is a candidate when the base path is a
strict prefix, the path is an immediate child (exactly one more segment), and
the child segment case-insensitively prefix-matches the partial identifier
(partial numeric prefix for an index segment). -/
def specDotMatch (basePath partKey : List Char) (s : AutocompleteSuggestion) : Bool :=
  let p := s.path.data
  lcStartsWith basePath p && decide (basePath.length < p.length) &&
    match p.drop basePath.length with
    | '.' :: seg =>
        (!seg.isEmpty && seg.all goodChar) &&
          lcStartsWith (partKey.map Char.toLower) (seg.map Char.toLower)
    | '[' :: rest =>
        (match rest.span Char.isDigit with
         | (ds, [']']) =>
             !ds.isEmpty && (partKey.isEmpty || lcStartsWith partKey ds)
         | _ => false)
    | _ => false

/-- One step of the spec-side dedup fold. -/
def dedupByKeyStep (basePath : List Char)
    (acc : List (List Char × AutocompleteSuggestion))
    (s : AutocompleteSuggestion) :
    List (List Char × AutocompleteSuggestion) :=
  match oneSegKey (s.path.data.drop basePath.length) with
  | none => acc
  | some key =>
      if acc.any (fun e => e.1 == key) then acc else acc ++ [(key, s)]

/-- Spec wording: deduplicate candidates mapping to the same immediate child
key, keeping the first. -/
def dedupByKey (basePath : List Char) (l : List AutocompleteSuggestion) :
    List AutocompleteSuggestion :=
  (l.foldl (dedupByKeyStep basePath) []).map (fun e => e.2)

/-- Spec wording: the full dot-notation candidate list. -/
def specDotCands (basePath partKey : List Char)
    (l : List AutocompleteSuggestion) : List AutocompleteSuggestion :=
  dedupByKey basePath (l.filter (specDotMatch basePath partKey))

-- A block decomposition of `getAllPaths`, used to reason about the walk.

/-- One child of a document node as indexed by `getAllPaths`: its path
separator, the entry's payload, and the subtree value when the walk
recurses. -/
structure Kid where
  sep : List Char
  val : Option JVal
  typ : String
  disp : String
  sub : Option JVal

/-- The entry a kid contributes. -/
def kidEntry (pre : String) (k : Kid) : AutocompleteSuggestion :=
  { path := pre ++ String.mk k.sep, value := k.val, type := k.typ,
    displayPath := k.disp }

/-- The contiguous run of entries a kid contributes: its own entry followed by
its subtree. -/
def blockOf (pre : String) (k : Kid) : List AutocompleteSuggestion :=
  kidEntry pre k ::
    (match k.sub with
     | some v => getAllPaths v (pre ++ String.mk k.sep)
     | none => [])

/-- The six synthetic array kids. -/
def methodKids (len : Nat) : List Kid :=
  [⟨".length".data, some (JVal.jnum len), "number", "length", none⟩,
   ⟨".map()".data, some (JVal.jstr "function"), "method", "map()", none⟩,
   ⟨".filter()".data, some (JVal.jstr "function"), "method", "filter()", none⟩,
   ⟨".find()".data, some (JVal.jstr "function"), "method", "find()", none⟩,
   ⟨".reduce()".data, some (JVal.jstr "function"), "method", "reduce()", none⟩,
   ⟨".forEach()".data, some (JVal.jstr "function"), "method", "forEach()", none⟩]

/-- The indexed array kids (`[i]` for `i < 3`). -/
def idxKids : Nat → List JVal → List Kid
  | _, [] => []
  | i, x :: r =>
      if i < 3 then
        ⟨'[' :: (toString i).data ++ [']'], some x, getType (some x),
         "[" ++ toString i ++ "]",
         if isObjLike x then some x else none⟩ :: idxKids (i + 1) r
      else []

/-- The kids of a node, in walk order. -/
def kidsOf : JVal → List Kid
  | JVal.jobj fs =>
      fs.map (fun kv =>
        ⟨'.' :: kv.1.data, some kv.2, getType (some kv.2), kv.1,
         if isObjLike kv.2 then some kv.2 else none⟩)
  | JVal.jarr xs => methodKids xs.length ++ idxKids 0 xs
  | _ => []

/-- A kid separator in one of the two rendered segment shapes. -/
def atomicSep (sep : List Char) : Prop :=
  (∃ k, sep = '.' :: k ∧ k ≠ [] ∧ k.all goodChar = true) ∨
  (∃ ds, sep = '[' :: (ds ++ [']']) ∧ ds ≠ [] ∧ ds.all Char.isDigit = true)

/-- The immediate-child dedup key a kid's block produces. -/
def kidKey (kid : Kid) : List Char :=
  match kid.sep with
  | '.' :: k => k
  | s => s

/-- The (uniform) filter verdict of a kid's whole block in the dot-notation
context when the base path equals the walk prefix. -/
def kidMatch (pk : List Char) (kid : Kid) : Bool :=
  match kid.sep with
  | '.' :: k => lcStartsWith (pk.map Char.toLower) (k.map Char.toLower)
  | _ => pk.isEmpty

/-- Shape of the trailing part of a block element's path after the kid's
separator. -/
def tailShaped (t : List Char) : Prop :=
  t = [] ∨ t.head? = some '.' ∨ t.head? = some '['

end Autocomplete

-- ===== THEOREMS =====

namespace Queryable


theorem jsCompare_self (a : JKey) : jsCompare a a = 0 := by
  simp [jsCompare]

/-- `jsGT` is asymmetric. -/
theorem jsGT_asymm : ∀ a b : JKey, jsGT a b = true → jsGT b a = false
  | JKey.jnull, JKey.jnull, h => by simp [jsGT] at h
  | JKey.jnull, JKey.jnum _, h => by simp [jsGT] at h
  | JKey.jnull, JKey.jstr _, h => by simp [jsGT] at h
  | JKey.jnum _, JKey.jnull, h => by simp [jsGT] at h
  | JKey.jstr _, JKey.jnull, h => by simp [jsGT] at h
  | JKey.jnum a, JKey.jnum b, h => by
      simp only [jsGT, decide_eq_true_eq] at h
      simp only [jsGT, decide_eq_false_iff_not]
      omega
  | JKey.jnum a, JKey.jstr t, h => by
      simp only [jsGT] at h ⊢
      cases ht : jsNumOfString t with
      | none =>
          try rw [ht] at h
          try rfl
          try exact Bool.noConfusion h
      | some v =>
          try rw [ht] at h
          try rw [ht]
          simp only [decide_eq_true_eq] at h
          simp only [decide_eq_false_iff_not]
          omega
  | JKey.jstr s, JKey.jnum b, h => by
      simp only [jsGT] at h ⊢
      cases hs : jsNumOfString s with
      | none =>
          try rw [hs] at h
          try exact Bool.noConfusion h
          try rfl
      | some v =>
          try rw [hs] at h
          try rw [hs]
          simp only [decide_eq_true_eq] at h
          simp only [decide_eq_false_iff_not]
          omega
  | JKey.jstr s, JKey.jstr t, h => by
      simp only [jsGT, decide_eq_true_eq] at h
      simp only [jsGT, decide_eq_false_iff_not]
      exact lt_asymm h

/-- `jsCompare` of distinct keys is -1 or 1, never 0. -/
theorem jsCompare_ne_zero : ∀ {a b : JKey}, a ≠ b →
    jsCompare a b = -1 ∨ jsCompare a b = 1 := by
  intro a b hne
  unfold jsCompare
  rw [if_neg hne]
  by_cases ha : a = JKey.jnull
  · rw [if_pos ha]; left; rfl
  rw [if_neg ha]
  by_cases hb : b = JKey.jnull
  · rw [if_pos hb]; right; rfl
  rw [if_neg hb]
  rcases a with _ | av | as <;> rcases b with _ | bv | bs <;>
    first
      | exact absurd rfl ha
      | exact absurd rfl hb
      | (dsimp only; split
         · right; rfl
         · left; rfl)
      | (dsimp only; split
         · left; rfl
         · right; rfl)

theorem jsCompare_eq_zero_iff (a b : JKey) : jsCompare a b = 0 ↔ a = b := by
  constructor
  · intro h
    by_contra hne
    rcases jsCompare_ne_zero hne with h1 | h1 <;> rw [h1] at h <;>
      exact absurd h (by decide)
  · intro h; subst h; exact jsCompare_self a

/-- If `jsCompare a b = 1` then `jsCompare b a = -1`. -/
theorem jsCompare_asymm {a b : JKey} (h : jsCompare a b = 1) :
    jsCompare b a = -1 := by
  have hne : a ≠ b := by
    intro he; subst he; rw [jsCompare_self] at h; exact absurd h (by decide)
  have hne2 : b ≠ a := fun he => hne he.symm
  unfold jsCompare at h ⊢
  rw [if_neg hne] at h
  rw [if_neg hne2]
  by_cases ha : a = JKey.jnull
  · rw [if_pos ha] at h; exact absurd h (by decide)
  rw [if_neg ha] at h
  by_cases hb : b = JKey.jnull
  · rw [if_pos hb]
  rw [if_neg hb] at h
  rw [if_neg hb, if_neg ha]
  rcases a with _ | av | as <;> rcases b with _ | bv | bs <;>
    first
      | exact absurd rfl ha
      | exact absurd rfl hb
      | (dsimp only at h ⊢
         split at h
         · rename_i hgt
           rw [jsGT_asymm _ _ hgt]
           rfl
         · exact absurd h (by decide))
      | (dsimp only at h ⊢
         split at h
         · exact absurd h (by decide)
         · rename_i hnlt
           have hst : as ≠ bs := fun he => hne (by rw [he])
           have : bs < as := by
             rcases lt_trichotomy as bs with h1 | h1 | h1
             · exact absurd h1 hnlt
             · exact absurd h1 hst
             · exact h1
           rw [if_pos this])

/-- `jsCompare` only takes the values -1, 0, 1. -/
theorem jsCompare_cases (a b : JKey) :
    jsCompare a b = -1 ∨ jsCompare a b = 0 ∨ jsCompare a b = 1 := by
  by_cases hne : a = b
  · subst hne; right; left; exact jsCompare_self a
  · rcases jsCompare_ne_zero hne with h | h
    · left; exact h
    · right; right; exact h

/-- If `0 ≤ jsCompare a b` then `jsCompare b a ≤ 0`: one direction of
comparator consistency that holds unconditionally. -/
theorem jsCompare_nonneg_flip {a b : JKey} (h : 0 ≤ jsCompare a b) :
    jsCompare b a ≤ 0 := by
  rcases jsCompare_cases a b with h1 | h1 | h1
  · omega
  · rw [(jsCompare_eq_zero_iff a b).mp h1, jsCompare_self]
  · rw [jsCompare_asymm h1]; omega

theorem mem_insertCmp (cmp : α → α → Int) (x z : α) :
    ∀ l : List α, z ∈ insertCmp cmp x l ↔ z = x ∨ z ∈ l := by
  intro l
  induction l with
  | nil => simp [insertCmp]
  | cons y rest ih =>
      by_cases h : cmp x y < 0
      · simp [insertCmp, h]
      · simp only [insertCmp, if_neg h, List.mem_cons, ih]
        tauto

theorem insertCmp_perm (cmp : α → α → Int) (x : α) :
    ∀ l : List α, (insertCmp cmp x l).Perm (x :: l) := by
  intro l
  induction l with
  | nil => simp [insertCmp]
  | cons y rest ih =>
      by_cases h : cmp x y < 0
      · simp [insertCmp, h]
      · rw [insertCmp, if_neg h]
        exact (List.Perm.cons y ih).trans (List.Perm.swap x y rest)

theorem sortCmpAux_perm (cmp : α → α → Int) :
    ∀ (l acc : List α),
      (l.foldl (fun acc x => insertCmp cmp x acc) acc).Perm (acc ++ l) := by
  intro l
  induction l with
  | nil => intro acc; simp
  | cons x rest ih =>
      intro acc
      have h1 := ih (insertCmp cmp x acc)
      have h2 : (insertCmp cmp x acc ++ rest).Perm ((x :: acc) ++ rest) :=
        (insertCmp_perm cmp x acc).append_right rest
      have h3 : ((x :: acc) ++ rest : List α).Perm (acc ++ x :: rest) :=
        List.perm_middle.symm
      exact h1.trans (h2.trans h3)

/-- The modelled sort is a permutation of its input (ECMA-262 guarantees this
even for inconsistent comparators). -/
theorem sortCmp_perm (cmp : α → α → Int) (l : List α) : (sortCmp cmp l).Perm l := by
  have h := sortCmpAux_perm cmp l []
  simpa [sortCmp] using h

theorem chain_insertCmp (cmp : α → α → Int)
    (Hf : ∀ a b, 0 ≤ cmp a b → cmp b a ≤ 0) (x : α) :
    ∀ l : List α, List.Chain' (leCmp cmp) l →
      List.Chain' (leCmp cmp) (insertCmp cmp x l) := by
  intro l
  induction l with
  | nil => intro _; simp [insertCmp]
  | cons y rest ih =>
      intro hch
      by_cases h : cmp x y < 0
      · rw [insertCmp, if_pos h]
        exact List.Chain'.cons (by unfold leCmp; omega) hch
      · rw [insertCmp, if_neg h]
        have hyx : leCmp cmp y x := Hf x y (by omega)
        have hrest : List.Chain' (leCmp cmp) rest := hch.tail
        have hins : List.Chain' (leCmp cmp) (insertCmp cmp x rest) := ih hrest
        cases rest with
        | nil =>
            simp only [insertCmp]
            exact List.chain'_cons.mpr ⟨hyx, List.chain'_singleton x⟩
        | cons z rest2 =>
            by_cases hz : cmp x z < 0
            · rw [insertCmp, if_pos hz] at hins ⊢
              exact List.chain'_cons.mpr ⟨hyx, hins⟩
            · rw [insertCmp, if_neg hz] at hins ⊢
              have hyz : leCmp cmp y z := (List.chain'_cons.mp hch).1
              exact List.chain'_cons.mpr ⟨hyz, hins⟩

/-- The modelled sort output is adjacently sorted: each element compares at
most 0 against its successor. -/
theorem sortCmp_chain (cmp : α → α → Int)
    (Hf : ∀ a b, 0 ≤ cmp a b → cmp b a ≤ 0) (l : List α) :
    List.Chain' (leCmp cmp) (sortCmp cmp l) := by
  suffices h : ∀ (l acc : List α), List.Chain' (leCmp cmp) acc →
      List.Chain' (leCmp cmp) (l.foldl (fun acc x => insertCmp cmp x acc) acc) by
    exact h l [] (by simp)
  intro l
  induction l with
  | nil => intro acc h; exact h
  | cons x rest ih =>
      intro acc h
      exact ih _ (chain_insertCmp cmp Hf x acc h)

/-- Along an adjacently sorted list, restricted transitivity propagates the
relation from the head to every member of the tail. -/
theorem chain_rel_of_mem {cmp : α → α → Int} {E : α → Prop}
    (Htrans : ∀ a b c, E a → E b → E c →
      cmp a b ≤ 0 → cmp b c ≤ 0 → cmp a c ≤ 0) :
    ∀ (rest : List α) (y z : α), E y → (∀ w ∈ rest, E w) →
      List.Chain' (leCmp cmp) (y :: rest) → z ∈ rest → cmp y z ≤ 0 := by
  intro rest
  induction rest with
  | nil => intro y z _ _ _ hz; simp at hz
  | cons w rest2 ih =>
      intro y z hEy hEm hch hz
      have hyw : cmp y w ≤ 0 := (List.chain'_cons.mp hch).1
      rcases List.mem_cons.mp hz with rfl | hz2
      · exact hyw
      · have hEw : E w := hEm w (by simp)
        have hEz : E z := hEm z (by simp [hz2])
        have hwz : cmp w z ≤ 0 :=
          ih w z hEw (fun u hu => hEm u (by simp [hu]))
            (List.chain'_cons.mp hch).2 hz2
        exact Htrans y w z hEy hEw hEz hyw hwz

/-- Inserting an element whose key differs from `v` leaves the key-`v`
subsequence unchanged. -/
theorem filter_insertCmp_ne (k : α → JKey) (v : JKey) (x : α)
    (hx : ¬ k x = v) :
    ∀ l : List α,
      (insertCmp (kcmp k) x l).filter (fun z => decide (k z = v)) =
        l.filter (fun z => decide (k z = v)) := by
  intro l
  induction l with
  | nil => simp [insertCmp, hx]
  | cons y rest ih =>
      by_cases h : kcmp k x y < 0
      · simp [insertCmp, h, hx]
      · rw [insertCmp, if_neg h]
        by_cases hy : k y = v
        · simp [List.filter, hy, ih]
        · simp [List.filter, hy, ih]

/-- Inserting an element whose key equals `v` into an adjacently sorted list
of consistent elements appends it to the key-`v` subsequence. -/
theorem filter_insertCmp_eq (k : α → JKey) (v : JKey) (x : α) {E : α → Prop}
    (Hanti : ∀ a b, E a → E b → kcmp k a b = -1 → kcmp k b a = 1)
    (Htrans : ∀ a b c, E a → E b → E c →
      kcmp k a b ≤ 0 → kcmp k b c ≤ 0 → kcmp k a c ≤ 0)
    (hx : k x = v) :
    ∀ l : List α, (∀ z ∈ l, E z) → List.Chain' (leCmp (kcmp k)) l →
      (insertCmp (kcmp k) x l).filter (fun z => decide (k z = v)) =
        l.filter (fun z => decide (k z = v)) ++ [x] := by
  intro l
  induction l with
  | nil => intro _ _; simp [insertCmp, hx]
  | cons y rest ih =>
      intro hEm hch
      by_cases h : kcmp k x y < 0
      · rw [insertCmp, if_pos h]
        have hempty : (y :: rest).filter (fun z => decide (k z = v)) = [] := by
          rw [List.filter_eq_nil_iff]
          intro z hz
          simp only [decide_eq_true_eq]
          intro hzv
          have hzy : kcmp k z y = kcmp k x y := by
            unfold kcmp; rw [hzv, ← hx]
          rcases List.mem_cons.mp hz with rfl | hz2
          · have : kcmp k x z = 0 := by
              unfold kcmp; rw [hzv, ← hx, jsCompare_self]
            have hzz : kcmp k z z = 0 := by
              unfold kcmp; rw [jsCompare_self]
            rw [hzz] at hzy
            omega
          · have hm1 : kcmp k z y = -1 := by
              unfold kcmp at hzy h ⊢
              rcases jsCompare_cases (k x) (k y) with h1 | h1 | h1 <;>
                (rw [h1] at hzy h; first | exact hzy | omega)
            have hEy : E y := hEm y (by simp)
            have hEz : E z := hEm z (by simp [hz2])
            have hyz : kcmp k y z ≤ 0 :=
              chain_rel_of_mem Htrans rest y z hEy
                (fun u hu => hEm u (by simp [hu])) hch hz2
            have := Hanti z y hEz hEy hm1
            omega
        rw [List.filter_cons_of_pos (by simp [hx]), hempty]
        rfl
      · rw [insertCmp, if_neg h]
        have hrec := ih (fun z hz => hEm z (by simp [hz])) hch.tail
        by_cases hy : k y = v
        · rw [List.filter_cons_of_pos (by simp [hy]),
            List.filter_cons_of_pos (by simp [hy]), hrec]
          rfl
        · rw [List.filter_cons_of_neg (by simp [hy]),
            List.filter_cons_of_neg (by simp [hy]), hrec]

/-- Stability of the modelled sort, provided the comparator restricted to the
participating elements is antisymmetric and transitive: for every key value
`v`, the subsequence of elements with key `v` is exactly preserved. -/
theorem sortCmp_filter_stable (k : α → JKey) (l : List α)
    (Hanti : ∀ a b, a ∈ l → b ∈ l → kcmp k a b = -1 → kcmp k b a = 1)
    (Htrans : ∀ a b c, a ∈ l → b ∈ l → c ∈ l →
      kcmp k a b ≤ 0 → kcmp k b c ≤ 0 → kcmp k a c ≤ 0)
    (v : JKey) :
    (sortCmp (kcmp k) l).filter (fun z => decide (k z = v)) =
      l.filter (fun z => decide (k z = v)) := by
  have Hf : ∀ a b : α, 0 ≤ kcmp k a b → kcmp k b a ≤ 0 := by
    intro a b h; exact jsCompare_nonneg_flip h
  suffices haux : ∀ (l2 acc : List α), (∀ z ∈ acc, z ∈ l) → (∀ z ∈ l2, z ∈ l) →
      List.Chain' (leCmp (kcmp k)) acc →
      (l2.foldl (fun acc x => insertCmp (kcmp k) x acc) acc).filter
          (fun z => decide (k z = v)) =
        acc.filter (fun z => decide (k z = v)) ++
          l2.filter (fun z => decide (k z = v)) by
    have h := haux l [] (by simp) (fun z hz => hz) (by simp)
    simpa [sortCmp] using h
  intro l2
  induction l2 with
  | nil => intro acc _ _ _; simp
  | cons x rest ih =>
      intro acc haccE hl2E hch
      have hxE : x ∈ l := hl2E x (by simp)
      have hstep :
          (insertCmp (kcmp k) x acc).filter (fun z => decide (k z = v)) =
            acc.filter (fun z => decide (k z = v)) ++
              (if k x = v then [x] else []) := by
        by_cases hx : k x = v
        · rw [if_pos hx]
          exact filter_insertCmp_eq k v x Hanti Htrans hx acc haccE hch
        · rw [if_neg hx]
          rw [filter_insertCmp_ne k v x hx acc]
          simp
      have hrec := ih (insertCmp (kcmp k) x acc)
        (fun z hz => by
          rcases (mem_insertCmp (kcmp k) x z acc).mp hz with rfl | hz2
          · exact hxE
          · exact haccE z hz2)
        (fun z hz => hl2E z (by simp [hz]))
        (chain_insertCmp (kcmp k) Hf x acc hch)
      calc ((x :: rest).foldl (fun acc x => insertCmp (kcmp k) x acc) acc).filter
              (fun z => decide (k z = v))
          = (rest.foldl (fun acc x => insertCmp (kcmp k) x acc)
              (insertCmp (kcmp k) x acc)).filter (fun z => decide (k z = v)) := rfl
        _ = (insertCmp (kcmp k) x acc).filter (fun z => decide (k z = v)) ++
              rest.filter (fun z => decide (k z = v)) := hrec
        _ = (acc.filter (fun z => decide (k z = v)) ++
              (if k x = v then [x] else [])) ++
              rest.filter (fun z => decide (k z = v)) := by rw [hstep]
        _ = acc.filter (fun z => decide (k z = v)) ++
              (x :: rest).filter (fun z => decide (k z = v)) := by
            by_cases hx : k x = v
            · rw [if_pos hx, List.filter_cons_of_pos (by simp [hx]),
                List.append_assoc]
              rfl
            · rw [if_neg hx, List.filter_cons_of_neg (by simp [hx]),
                List.append_nil]

theorem lookupGroup_insertGroup [DecidableEq K] (k2 k : K) (i : β) :
    ∀ m : List (K × List β),
      (lookupGroup (insertGroup k2 i m) k).getD [] =
        if k2 = k then (lookupGroup m k).getD [] ++ [i]
        else (lookupGroup m k).getD [] := by
  intro m
  induction m with
  | nil =>
      by_cases h : k2 = k
      · subst h; simp [insertGroup, lookupGroup]
      · simp [insertGroup, lookupGroup, h, Ne.symm h]
  | cons e rest ih =>
      obtain ⟨k3, g⟩ := e
      by_cases h32 : k3 = k2
      · subst h32
        rw [insertGroup, if_pos rfl]
        by_cases h3k : k3 = k
        · subst h3k
          simp [lookupGroup]
        · simp [lookupGroup, h3k, if_neg h3k]
      · rw [insertGroup, if_neg h32]
        by_cases h3k : k3 = k
        · subst h3k
          have h2k : ¬ k2 = k3 := fun he => h32 he.symm
          simp [lookupGroup, if_neg h2k]
        · simp only [lookupGroup] at ih ⊢
          rw [List.find?_cons_of_neg _ (by simp [h3k]),
            List.find?_cons_of_neg _ (by simp [h3k])]
          exact ih

theorem lookupGroup_buildIndex [DecidableEq K] (iKey : β → K)
    (inner : List β) (k : K) :
    (lookupGroup (buildIndex iKey inner) k).getD [] =
      inner.filter (fun i => decide (iKey i = k)) := by
  suffices haux : ∀ (l2 : List β) (acc : List (K × List β)),
      (lookupGroup (l2.foldl (fun m i => insertGroup (iKey i) i m) acc) k).getD [] =
        (lookupGroup acc k).getD [] ++ l2.filter (fun i => decide (iKey i = k)) by
    have h := haux inner []
    simpa [buildIndex, lookupGroup] using h
  intro l2
  induction l2 with
  | nil => intro acc; simp
  | cons i rest ih =>
      intro acc
      have hstep := lookupGroup_insertGroup (iKey i) k i acc
      calc (lookupGroup ((i :: rest).foldl
              (fun m i => insertGroup (iKey i) i m) acc) k).getD []
          = (lookupGroup (rest.foldl (fun m i => insertGroup (iKey i) i m)
              (insertGroup (iKey i) i acc)) k).getD [] := rfl
        _ = (lookupGroup (insertGroup (iKey i) i acc) k).getD [] ++
              rest.filter (fun x => decide (iKey x = k)) := ih _
        _ = (lookupGroup acc k).getD [] ++
              (i :: rest).filter (fun x => decide (iKey x = k)) := by
            rw [hstep]
            by_cases hik : iKey i = k
            · rw [if_pos hik, List.filter_cons_of_pos (by simp [hik]),
                List.append_assoc]
              rfl
            · rw [if_neg hik, List.filter_cons_of_neg (by simp [hik])]

/-- C8: `Join(inner, outerKey, innerKey, result)` is equivalent — in fact
equal as a list, hence equal as a multiset — to the nested-loop inner-join:
the collection of `result(o, i)` over every pair `(o, i)` with `o` in the
outer sequence, `i` in the inner sequence and `outerKey o = innerKey i`,
in outer-then-inner order. -/
theorem c8_join_nested_loop [DecidableEq K] (l : List α) (inner : List β)
    (oKey : α → K) (iKey : β → K) (res : α → β → γ) :
    Join l inner oKey iKey res = nestedLoopJoin l inner oKey iKey res ∧
    (Join l inner oKey iKey res).Perm (nestedLoopJoin l inner oKey iKey res) := by
  have key : ∀ o : α,
      (match lookupGroup (buildIndex iKey inner) (oKey o) with
        | some ms => ms.map (res o)
        | none => []) =
      (inner.filter fun i => decide (iKey i = oKey o)).map (res o) := by
    intro o
    have hopt : ∀ x : Option (List β),
        (match x with
          | some ms => ms.map (res o)
          | none => []) = (x.getD []).map (res o) := by
      intro x; cases x <;> rfl
    rw [hopt, lookupGroup_buildIndex]
  have heq : Join l inner oKey iKey res = nestedLoopJoin l inner oKey iKey res := by
    show (l.flatMap fun o =>
        match lookupGroup (buildIndex iKey inner) (oKey o) with
        | some ms => ms.map (res o)
        | none => []) = _
    rw [funext key]
    rfl
  exact ⟨heq, heq ▸ List.Perm.refl _⟩

/-- C2: `Single` errors exactly when the (optionally predicate-filtered)
sequence has zero or more than one element and returns the unique element
otherwise; `SingleOrDefault` returns the supplied default on empty and errors
on more than one.  In particular `Single()` on `[1,2]` and `[]` errors and on
`[42]` returns 42. -/
theorem c2_single_spec (l : List α) (pred : Option (α → Bool)) (d : α) :
    (((filteredBy l pred).length = 0 ∨ 1 < (filteredBy l pred).length) →
      ∃ e, Single l pred = Except.error e) ∧
    (∀ x, filteredBy l pred = [x] → Single l pred = Except.ok x) ∧
    (filteredBy l pred = [] → SingleOrDefault l d pred = Except.ok d) ∧
    (1 < (filteredBy l pred).length →
      ∃ e, SingleOrDefault l d pred = Except.error e) ∧
    (∃ e, Single ([1, 2] : List Int) none = Except.error e) ∧
    (∃ e, Single ([] : List Int) none = Except.error e) ∧
    Single ([42] : List Int) none = Except.ok 42 := by
  refine ⟨?_, ?_, ?_, ?_, ⟨_, rfl⟩, ⟨_, rfl⟩, rfl⟩
  · intro hlen
    unfold Single
    rw [dif_neg (by omega)]
    exact ⟨_, rfl⟩
  · intro x hx
    unfold Single
    have hlen : (filteredBy l pred).length = 1 := by rw [hx]; rfl
    rw [dif_pos hlen]
    congr 1
    rw [List.get_of_eq hx]
    simp
  · intro hx
    unfold SingleOrDefault
    rw [dif_pos (by rw [hx]; rfl)]
  · intro hlen
    unfold SingleOrDefault
    rw [dif_neg (by omega), dif_pos hlen]
    exact ⟨_, rfl⟩

/-- Witness for `c2_single_spec` at concrete inputs. -/
theorem c2_single_spec_witness :
    (∃ e, Single ([5, 5] : List Int) none = Except.error e) ∧
    SingleOrDefault ([] : List Int) 9 none = Except.ok 9 ∧
    Single ([7] : List Int) none = Except.ok 7 :=
  ⟨(c2_single_spec ([5, 5] : List Int) none 9).1 (Or.inr (by decide)),
   (c2_single_spec ([] : List Int) none 9).2.2.1 rfl,
   (c2_single_spec ([7] : List Int) none 9).2.1 7 rfl⟩

/-- C9 (amended): `ThenBy(k)` computes exactly the same result as
`OrderBy(k)` — an independent stable full re-sort by `k` alone — so
`OrderBy(k1).ThenBy(k2)` equals stably re-sorting the whole `OrderBy(k1)`
result by `k2`.  (Contrary to the original claim's final clause, this does
not match standard LINQ multi-key semantics even when chained immediately
after `OrderBy`: see the counterexample.) -/
theorem c9_thenBy_eq_orderBy (k k1 k2 : α → JKey) (l : List α) :
    ThenBy k l = OrderBy k l ∧
    ThenBy k2 (OrderBy k1 l) = OrderBy k2 (OrderBy k1 l) :=
  ⟨rfl, rfl⟩

/-- Counterexample for C9: on `[(1,2),(2,1)]` with `k1 = fst`, `k2 = snd`,
the chain `OrderBy(k1).ThenBy(k2)` yields `[(2,1),(1,2)]` (primary key `k2`,
ties by `k1`), while standard LINQ `OrderBy(k1).ThenBy(k2)` — the
lexicographic sort with primary `k1` — yields `[(1,2),(2,1)]`.  So the chain
does not match LINQ multi-key semantics even immediately after `OrderBy`. -/
theorem c9_linq_mismatch :
    ThenBy (fun p : Int × Int => JKey.jnum p.2)
        (OrderBy (fun p : Int × Int => JKey.jnum p.1) [(1, 2), (2, 1)]) =
      [(2, 1), (1, 2)] ∧
    linqOrderByThenBy (fun p : Int × Int => JKey.jnum p.1)
        (fun p : Int × Int => JKey.jnum p.2) [(1, 2), (2, 1)] =
      [(1, 2), (2, 1)] ∧
    ([(2, 1), (1, 2)] : List (Int × Int)) ≠ [(1, 2), (2, 1)] := by
  refine ⟨by decide, by decide, by decide⟩

/-- C1 (amended): no operator ever mutates an existing snapshot — every heap
entry, in particular the source handle's snapshot and hence `q.ToArray()`, is
unchanged by applying any operator — and each operator either returns a fresh
handle over a newly appended snapshot or (for `DefaultIfEmpty` on a non-empty
sequence and `SkipLast` with `n ≤ 0`) returns the same handle over the
untouched heap.  `CopyTo` stays the one mutating terminal, excluded here. -/
theorem c1_ops_preserve_snapshots (op : Op α) (heap : SnapHeap α) (h : Nat) :
    (∀ i, i < heap.length → (Op.apply op heap h).1.getD i [] = heap.getD i []) ∧
    (h < heap.length → ToArray (Op.apply op heap h).1 h = ToArray heap h) ∧
    ((Op.apply op heap h).1 = heap ∧ (Op.apply op heap h).2 = h ∨
      ∃ a, (Op.apply op heap h).1 = heap ++ [a] ∧
        (Op.apply op heap h).2 = heap.length) := by
  have hGetD : ∀ (a : List α) (i : Nat), i < heap.length →
      (heap ++ [a]).getD i [] = heap.getD i [] := by
    intro a i hi
    exact List.getD_append _ _ _ _ hi
  have main : ∀ r : SnapHeap α × Nat,
      (r = (heap, h) ∨ ∃ a, r = (heap ++ [a], heap.length)) →
      ((∀ i, i < heap.length → r.1.getD i [] = heap.getD i []) ∧
       (h < heap.length → ToArray r.1 h = ToArray heap h) ∧
       (r.1 = heap ∧ r.2 = h ∨
         ∃ a, r.1 = heap ++ [a] ∧ r.2 = heap.length)) := by
    intro r hr
    rcases hr with rfl | ⟨a, rfl⟩
    · exact ⟨fun i _ => rfl, fun _ => rfl, Or.inl ⟨rfl, rfl⟩⟩
    · exact ⟨fun i hi => hGetD a i hi, fun hh => hGetD a h hh,
        Or.inr ⟨a, rfl, rfl⟩⟩
  apply main
  cases op with
  | opWhere p => exact Or.inr ⟨_, rfl⟩
  | opSelect f => exact Or.inr ⟨_, rfl⟩
  | opOrderBy k => exact Or.inr ⟨_, rfl⟩
  | opSkip n => exact Or.inr ⟨_, rfl⟩
  | opTake n => exact Or.inr ⟨_, rfl⟩
  | opAppend x => exact Or.inr ⟨_, rfl⟩
  | opPrepend x => exact Or.inr ⟨_, rfl⟩
  | opReverse => exact Or.inr ⟨_, rfl⟩
  | opConcat other => exact Or.inr ⟨_, rfl⟩
  | opDefaultIfEmpty d =>
      by_cases he : (heap.getD h []).length = 0
      · right
        refine ⟨[d], ?_⟩
        show (if (heap.getD h []).length = 0
            then (heap ++ [[d]], heap.length) else (heap, h)) = _
        rw [if_pos he]
      · left
        show (if (heap.getD h []).length = 0
            then (heap ++ [[d]], heap.length) else (heap, h)) = _
        rw [if_neg he]
  | opSkipLast n =>
      by_cases hn : n ≤ 0
      · left
        show (if n ≤ 0 then (heap, h)
            else (heap ++ [jsSlice (heap.getD h []) 0 (some (-n))], heap.length)) = _
        rw [if_pos hn]
      · right
        refine ⟨jsSlice (heap.getD h []) 0 (some (-n)), ?_⟩
        show (if n ≤ 0 then (heap, h)
            else (heap ++ [jsSlice (heap.getD h []) 0 (some (-n))], heap.length)) = _
        rw [if_neg hn]

/-- Witness for `c1_ops_preserve_snapshots` at a concrete heap and operator. -/
theorem c1_ops_preserve_snapshots_witness :
    ToArray ((Op.apply (Op.opAppend (7 : Int)) [[1, 2]] 0).1) 0 =
      ToArray [[1, 2]] 0 :=
  (c1_ops_preserve_snapshots (Op.opAppend (7 : Int)) [[1, 2]] 0).2.1
    (by decide)

/-- Counterexample for C1 as stated: `DefaultIfEmpty` applied to the
non-empty snapshot `[1]` returns the *same* handle `0` over the unchanged
heap (source line 251 `return this`), refuting "every transformation yields
a brand-new snapshot / `op(q)` is never the same handle as `q`". -/
theorem c1_defaultIfEmpty_same_handle :
    Op.apply (Op.opDefaultIfEmpty (0 : Int)) [[1]] 0 = ([[1]], 0) := rfl

/-- Evaluation of `_compare` on two numbers. -/
theorem jsCompare_num (x y : Int) :
    jsCompare (JKey.jnum x) (JKey.jnum y) =
      if x = y then 0 else if y < x then 1 else -1 := by
  unfold jsCompare
  by_cases h : x = y
  · simp [h]
  · rw [if_neg (by simp [h]), if_neg (by simp), if_neg (by simp)]
    dsimp only
    rw [if_neg h]
    by_cases h2 : y < x
    · rw [if_pos h2, if_pos (by simp only [jsGT, decide_eq_true_eq]; omega)]
    · rw [if_neg h2, if_neg (by simp only [jsGT, decide_eq_true_eq]; omega)]

/-- C3 (amended): `OrderBy(k).ToArray()` is always a permutation of the
input; provided the comparer restricted to the computed keys is antisymmetric
and transitive (e.g. homogeneous key types, possibly mixed with nulls), it is
also sorted ascending by the comparer contract (each element compares `≤ 0`
against its successor) and a stable permutation: every equal-key subsequence
is preserved exactly.  Without that proviso the comparator can be
inconsistent (mixed number/string keys) and stability can fail, see the
counterexample. -/
theorem c3_orderBy_sorted_stable_perm (k : α → JKey) (l : List α)
    (Hanti : ∀ a b, a ∈ l → b ∈ l →
      jsCompare (k a) (k b) = -1 → jsCompare (k b) (k a) = 1)
    (Htrans : ∀ a b c, a ∈ l → b ∈ l → c ∈ l →
      jsCompare (k a) (k b) ≤ 0 → jsCompare (k b) (k c) ≤ 0 →
      jsCompare (k a) (k c) ≤ 0) :
    (OrderBy k l).Perm l ∧
    List.Chain' (fun a b => jsCompare (k a) (k b) ≤ 0) (OrderBy k l) ∧
    ∀ v, (OrderBy k l).filter (fun z => decide (k z = v)) =
      l.filter (fun z => decide (k z = v)) := by
  refine ⟨sortCmp_perm _ l, ?_, ?_⟩
  · exact sortCmp_chain (kcmp k) (fun a b h => jsCompare_nonneg_flip h) l
  · intro v
    exact sortCmp_filter_stable k l Hanti Htrans v

/-- Witness for `c3_orderBy_sorted_stable_perm` on homogeneous numeric keys. -/
theorem c3_orderBy_sorted_stable_perm_witness :
    (OrderBy (fun n : Int => JKey.jnum n) [3, 1, 2]).Perm [3, 1, 2] ∧
    List.Chain' (fun a b : Int => jsCompare (JKey.jnum a) (JKey.jnum b) ≤ 0)
      (OrderBy (fun n : Int => JKey.jnum n) [3, 1, 2]) ∧
    (OrderBy (fun n : Int => JKey.jnum n) [3, 1, 2]).filter
        (fun z => decide (JKey.jnum z = JKey.jnum 2)) =
      ([3, 1, 2] : List Int).filter (fun z => decide (JKey.jnum z = JKey.jnum 2)) := by
  have Hanti : ∀ a b : Int, a ∈ ([3, 1, 2] : List Int) → b ∈ ([3, 1, 2] : List Int) →
      jsCompare (JKey.jnum a) (JKey.jnum b) = -1 →
      jsCompare (JKey.jnum b) (JKey.jnum a) = 1 := by
    intro a b _ _ h
    rw [jsCompare_num] at h ⊢
    split_ifs at h ⊢ <;> omega
  have Htrans : ∀ a b c : Int, a ∈ ([3, 1, 2] : List Int) →
      b ∈ ([3, 1, 2] : List Int) → c ∈ ([3, 1, 2] : List Int) →
      jsCompare (JKey.jnum a) (JKey.jnum b) ≤ 0 →
      jsCompare (JKey.jnum b) (JKey.jnum c) ≤ 0 →
      jsCompare (JKey.jnum a) (JKey.jnum c) ≤ 0 := by
    intro a b c _ _ _ h1 h2
    rw [jsCompare_num] at h1 h2 ⊢
    split_ifs at h1 h2 ⊢ <;> omega
  obtain ⟨h1, h2, h3⟩ :=
    c3_orderBy_sorted_stable_perm (fun n : Int => JKey.jnum n) [3, 1, 2]
      Hanti Htrans
  exact ⟨h1, h2, h3 (JKey.jnum 2)⟩

/-- Counterexample for C3 as stated: with mixed string/number keys the
comparator is inconsistent (`"x"` vs `5` compares `-1` in both directions),
and the sort reverses the relative order of the two elements carrying the
equal key `"x"` — the output is not a stable permutation. -/
theorem c3_stability_counterexample :
    OrderBy (fun p : Nat × JKey => p.2)
        [(0, JKey.jstr "x"), (1, JKey.jnum 5), (2, JKey.jstr "x")] =
      [(2, JKey.jstr "x"), (1, JKey.jnum 5), (0, JKey.jstr "x")] ∧
    (OrderBy (fun p : Nat × JKey => p.2)
        [(0, JKey.jstr "x"), (1, JKey.jnum 5), (2, JKey.jstr "x")]).filter
        (fun z => decide (z.2 = JKey.jstr "x")) =
      [(2, JKey.jstr "x"), (0, JKey.jstr "x")] ∧
    ([(0, JKey.jstr "x"), (1, JKey.jnum 5), (2, JKey.jstr "x")] :
        List (Nat × JKey)).filter (fun z => decide (z.2 = JKey.jstr "x")) =
      [(0, JKey.jstr "x"), (2, JKey.jstr "x")] ∧
    ([(2, JKey.jstr "x"), (0, JKey.jstr "x")] : List (Nat × JKey)) ≠
      [(0, JKey.jstr "x"), (2, JKey.jstr "x")] :=
  ⟨by decide, by decide, by decide, by decide⟩

/-- For nonnegative start and `size ≥ 1`, the slice `slice(i, i+size)` is
drop-then-take. -/
theorem jsSlice_nonneg_spec (l : List α) (j : Nat) (size : Int) (hs : 1 ≤ size) :
    jsSlice l (j : Int) (some ((j : Int) + size)) = (l.drop j).take size.toNat := by
  simp only [jsSlice]
  rw [if_neg (by omega), if_neg (by omega)]
  have e1 : (min ((j : Int) + size) (l.length : Int)).toNat =
      min (j + size.toNat) l.length := by omega
  have k1 : (min (j : Int) (l.length : Int)).toNat = min j l.length := by omega
  rw [e1, k1]
  have hA : l.take (min (j + size.toNat) l.length) = l.take (j + size.toNat) := by
    rcases le_total (j + size.toNat) l.length with h | h
    · rw [min_eq_left h]
    · rw [min_eq_right h, List.take_length, List.take_of_length_le h]
  rw [hA]
  have hB : (l.take (j + size.toNat)).drop (min j l.length) =
      (l.take (j + size.toNat)).drop j := by
    rcases le_total j l.length with h | h
    · rw [min_eq_left h]
    · rw [min_eq_right h]
      have hlen1 : (l.take (j + size.toNat)).length ≤ l.length := by
        rw [List.length_take]; omega
      rw [List.drop_eq_nil_of_le hlen1,
        List.drop_eq_nil_of_le (le_trans hlen1 h)]
  rw [hB, List.drop_take]
  congr 1
  omega

/-- With exhausted loop condition (`j ≥ length`) any positive fuel exits with
the empty output. -/
theorem chunkFuel_exit (l : List α) (size : Int) (fuel : Nat) (j : Nat)
    (hj : l.length ≤ j) :
    chunkFuel l size (fuel + 1) (j : Int) = some [] := by
  unfold chunkFuel
  rw [if_neg (by omega)]

/-- Soundness of the `Chunk` loop for `size ≥ 1`, parametrised by the loop
index: with enough fuel it returns the consecutive chunks of the suffix. -/
theorem chunkFuel_sound (l : List α) (size : Int) (hs : 1 ≤ size) :
    ∀ (fuel : Nat) (j : Nat), l.length ≤ j + fuel * size.toNat →
      ∃ out, chunkFuel l size (fuel + 1) (j : Int) = some out ∧
        out.flatten = l.drop j ∧
        out.length = (l.length - j + size.toNat - 1) / size.toNat ∧
        (∀ c ∈ out, 1 ≤ c.length ∧ c.length ≤ size.toNat) ∧
        (∀ m, m + 1 < out.length → (out.getD m []).length = size.toNat) := by
  intro fuel
  induction fuel with
  | zero =>
      intro j hj
      simp only [Nat.zero_mul, Nat.add_zero] at hj
      refine ⟨[], chunkFuel_exit l size 0 j hj, ?_, ?_, ?_, ?_⟩
      · simp [List.drop_eq_nil_of_le hj]
      · have h0 : l.length - j = 0 := by omega
        rw [h0]
        simp only [List.length_nil, Nat.zero_add]
        exact (Nat.div_eq_of_lt (by omega)).symm
      · intro c hc; simp at hc
      · intro m hm; simp at hm
  | succ f ih =>
      intro j hj
      by_cases hlt : j < l.length
      · have hj2 : l.length ≤ j + size.toNat + f * size.toNat := by
          rw [Nat.succ_mul] at hj; omega
        obtain ⟨rest, hr1, hr2, hr3, hr4, hr5⟩ := ih (j + size.toNat) hj2
        have hplus : (j : Int) + size = ((j + size.toNat : Nat) : Int) := by omega
        refine ⟨jsSlice l (j : Int) (some ((j : Int) + size)) :: rest, ?_, ?_, ?_, ?_, ?_⟩
        · show chunkFuel l size (f + 1 + 1) (j : Int) = _
          unfold chunkFuel
          rw [if_pos (by omega)]
          rw [hplus, hr1]
        · rw [List.flatten_cons, jsSlice_nonneg_spec l j size hs, hr2]
          rw [show l.drop (j + size.toNat) = (l.drop j).drop size.toNat by
            rw [List.drop_drop]]
          exact List.take_append_drop _ _
        · rw [List.length_cons, hr3]
          rcases le_or_lt (l.length - j) size.toNat with hc | hc
          · have h0 : l.length - (j + size.toNat) = 0 := by omega
            rw [h0]
            have hL : (0 + size.toNat - 1) / size.toNat = 0 :=
              Nat.div_eq_of_lt (by omega)
            rw [hL]
            have hR : l.length - j + size.toNat - 1 =
                (l.length - j - 1) + size.toNat := by omega
            rw [hR, Nat.add_div_right _ (by omega : 0 < size.toNat),
              Nat.div_eq_of_lt (by omega : l.length - j - 1 < size.toNat)]
          · have h1 : l.length - (j + size.toNat) + size.toNat - 1 =
                l.length - j - 1 := by omega
            have h2 : l.length - j + size.toNat - 1 =
                (l.length - j - 1) + size.toNat := by omega
            rw [h1, h2, Nat.add_div_right _ (by omega : 0 < size.toNat)]
        · intro c hc
          rcases List.mem_cons.mp hc with rfl | hc2
          · rw [jsSlice_nonneg_spec l j size hs, List.length_take,
              List.length_drop]
            omega
          · exact hr4 c hc2
        · intro m hm
          cases m with
          | zero =>
              have hrl : 1 ≤ rest.length := by
                simp only [List.length_cons] at hm; omega
              have hlen2 : size.toNat + 1 ≤ l.length - j := by
                by_contra hne
                have h0 : l.length - (j + size.toNat) = 0 := by omega
                rw [h0] at hr3
                have : rest.length = 0 := by
                  rw [hr3]
                  exact Nat.div_eq_of_lt (by omega)
                omega
              show (jsSlice l (j : Int) (some ((j : Int) + size))).length = size.toNat
              rw [jsSlice_nonneg_spec l j size hs, List.length_take,
                List.length_drop]
              omega
          | succ m2 =>
              have hm2 : m2 + 1 < rest.length := by
                simp only [List.length_cons] at hm; omega
              have := hr5 m2 hm2
              simpa using this
      · refine ⟨[], chunkFuel_exit l size (f + 1) j (by omega), ?_, ?_, ?_, ?_⟩
        · simp [List.drop_eq_nil_of_le (by omega : l.length ≤ j)]
        · have h0 : l.length - j = 0 := by omega
          rw [h0]
          simp only [List.length_nil, Nat.zero_add]
          exact (Nat.div_eq_of_lt (by omega)).symm
        · intro c hc; simp at hc
        · intro m hm; simp at hm

/-- If `size ≤ 0` on a non-empty sequence the loop index never advances past
the loop condition: no amount of fuel makes the loop terminate. -/
theorem chunkFuel_noprogress (l : List α) (size : Int) (hneg : size ≤ 0)
    (hne : l ≠ []) :
    ∀ (fuel : Nat) (i : Int), i ≤ 0 → chunkFuel l size fuel i = none := by
  intro fuel
  induction fuel with
  | zero => intro i _; rfl
  | succ f ih =>
      intro i hi
      unfold chunkFuel
      have hlen : 1 ≤ l.length := List.length_pos.mpr hne
      rw [if_pos (by omega)]
      rw [ih (i + size) (by omega)]

/-- C10: for `size ≥ 1`, `Chunk(size)` terminates and yields
`⌈n / size⌉` consecutive groups whose concatenation is the original
sequence, each group of length `size` except a possibly shorter (but
non-empty) last group.  The precondition is necessary: for `size ≤ 0` on a
non-empty sequence the loop index does not progress and no fuel suffices,
i.e. the source loop diverges. -/
theorem c10_chunk_spec (l : List α) (size : Int) :
    (1 ≤ size →
      ∃ out, Chunk l size = some out ∧ out.flatten = l ∧
        out.length = (l.length + size.toNat - 1) / size.toNat ∧
        (∀ c ∈ out, 1 ≤ c.length ∧ c.length ≤ size.toNat) ∧
        (∀ m, m + 1 < out.length → (out.getD m []).length = size.toNat)) ∧
    (size ≤ 0 → l ≠ [] → ∀ fuel, chunkFuel l size fuel 0 = none) := by
  constructor
  · intro hs
    have hfuel : l.length ≤ 0 + l.length * size.toNat := by
      have h1 : 0 < size.toNat := by omega
      have := Nat.le_mul_of_pos_right l.length h1
      omega
    obtain ⟨out, h1, h2, h3, h4, h5⟩ := chunkFuel_sound l size hs l.length 0 hfuel
    refine ⟨out, ?_, by simpa using h2, by simpa using h3, h4, h5⟩
    show chunkFuel l size (l.length + 1) 0 = some out
    exact_mod_cast h1
  · intro hneg hne fuel
    exact chunkFuel_noprogress l size hneg hne fuel 0 (le_refl 0)

/-- Witness for `c10_chunk_spec`: `Chunk(2)` on `[1,2,3,4,5]` and the
diverging case at `size = -1`. -/
theorem c10_chunk_spec_witness :
    (∃ out, Chunk ([1, 2, 3, 4, 5] : List Int) 2 = some out ∧
      out.flatten = [1, 2, 3, 4, 5] ∧
      out.length = (([1, 2, 3, 4, 5] : List Int).length + (2 : Int).toNat - 1) /
        (2 : Int).toNat ∧
      (∀ c ∈ out, 1 ≤ c.length ∧ c.length ≤ (2 : Int).toNat) ∧
      (∀ m, m + 1 < out.length → (out.getD m []).length = (2 : Int).toNat)) ∧
    Chunk ([1, 2, 3, 4, 5] : List Int) 2 = some [[1, 2], [3, 4], [5]] ∧
    chunkFuel ([1] : List Int) (-1) 7 0 = none :=
  ⟨(c10_chunk_spec ([1, 2, 3, 4, 5] : List Int) 2).1 (by decide),
   by decide,
   (c10_chunk_spec ([1] : List Int) (-1)).2 (by decide) (by decide) 7⟩

end Queryable

-- ===== AUTOCOMPLETE ENGINE THEOREMS =====

namespace Autocomplete

/-- The guard makes the resolution loop total: the loop over raw JS member
accesses (which throw on `null`/`undefined`) always returns `ok` of the
guarded loop's value. -/
theorem resolvePartsE_ok (ps : List (List Char)) :
    ∀ cur, resolvePartsE cur ps = Except.ok (resolveParts cur ps) := by
  induction ps with
  | nil => intro cur; rfl
  | cons p ps ih =>
      intro cur
      match cur with
      | none => rfl
      | some JVal.jnull => rfl
      | some (JVal.jbool b) => rfl
      | some (JVal.jnum n) => rfl
      | some (JVal.jstr s) => rfl
      | some (JVal.jarr xs) =>
          show resolvePartsE (some (JVal.jarr xs)) (p :: ps) = _
          rw [resolvePartsE, resolveParts]
          simp only [isObjVal, Bool.not_true, Bool.false_eq_true, if_false,
            jsMemberE]
          exact ih _
      | some (JVal.jobj fs) =>
          show resolvePartsE (some (JVal.jobj fs)) (p :: ps) = _
          rw [resolvePartsE, resolveParts]
          simp only [isObjVal, Bool.not_true, Bool.false_eq_true, if_false,
            jsMemberE]
          exact ih _

/-- `getValueAtPathFromObj` never throws. -/
theorem getValueAtPathFromObjE_ok (obj : Option JVal) (path : List Char) :
    getValueAtPathFromObjE obj path =
      Except.ok (getValueAtPathFromObj obj path) := by
  unfold getValueAtPathFromObjE getValueAtPathFromObj
  by_cases h : path.isEmpty <;> simp [h, resolvePartsE_ok]

/-- `getValueAtPath` never throws. -/
theorem getValueAtPathE_ok (root : Option JVal) (path : List Char) :
    getValueAtPathE root path = Except.ok (getValueAtPath root path) := by
  unfold getValueAtPathE getValueAtPath
  by_cases h : path.isEmpty || path == "data".data
  · simp [h]
  · simp only [h, Bool.false_eq_true, if_false, getValueAtPathFromObjE_ok]
    split <;> rfl

/-- A scalar as the current value short-circuits the loop to `undefined`. -/
theorem resolveParts_scalar (v : JVal) (hv : isObjLike v = false)
    (p : List Char) (ps : List (List Char)) :
    resolveParts (some v) (p :: ps) = none := by
  rw [resolveParts]
  match v, hv with
  | JVal.jnull, _ => rfl
  | JVal.jbool b, _ => rfl
  | JVal.jnum n, _ => rfl
  | JVal.jstr s, _ => rfl

/-- An empty dot-branch filter leaves the popup closed (and the stale
suggestion list untouched). -/
theorem dotUpdate_closed (allP : List AutocompleteSuggestion)
    (st : SuggestState) (cursor matchLen : Nat) (caps : Caps)
    (h : allP.filter (dotFilter (capStr caps 1) (capStr caps 2)) = []) :
    (dotUpdate allP st cursor matchLen caps).isOpen = false := by
  unfold dotUpdate
  dsimp only
  rw [h]
  rfl

set_option maxRecDepth 1000000 in
/-- C7: the suggestion engine never throws.  Path resolution is total: the
raw-JS member-access semantics (which would throw a `TypeError` on
`null`/`undefined`) provably returns `ok` of the guarded value on every input,
a type mismatch (indexing into a scalar) yields no value rather than an error,
and a base path with no filter hits produces the closed state; concretely,
`data.nonexistent.x` over the reference document closes the popup and
resolving past the string `data.user.name` yields no value. -/
theorem c7_never_throws (root : Option JVal) (path : List Char) (v : JVal)
    (hv : isObjLike v = false) (p : List Char) (ps : List (List Char))
    (hsplit : splitPath path = p :: ps)
    (allP : List AutocompleteSuggestion) (st : SuggestState)
    (cursor matchLen : Nat) (caps : Caps)
    (hnone : allP.filter (dotFilter (capStr caps 1) (capStr caps 2)) = []) :
    getValueAtPathFromObjE root path =
      Except.ok (getValueAtPathFromObj root path) ∧
    getValueAtPathE root path = Except.ok (getValueAtPath root path) ∧
    getValueAtPathFromObj (some v) path = none ∧
    (dotUpdate allP st cursor matchLen caps).isOpen = false ∧
    (findSuggestions refDoc "data.nonexistent.x" 18 {}).isOpen = false ∧
    getValueAtPath refDoc "data.user.name.x".data = none := by
  refine ⟨getValueAtPathFromObjE_ok root path, getValueAtPathE_ok root path,
    ?_, dotUpdate_closed allP st cursor matchLen caps hnone, by decide, rfl⟩
  have hne : path.isEmpty = false := by
    cases path with
    | nil => simp [splitPath, lcSplit] at hsplit
    | cons c t => rfl
  unfold getValueAtPathFromObj
  rw [hne, hsplit]
  exact resolveParts_scalar v hv p ps

/-- Witness for `c7_never_throws` at `v = 0`, `path = "x"`, empty path
index. -/
theorem c7_never_throws_witness :
    (isObjLike (JVal.jnum 0) = false ∧
     splitPath "x".data = ["x".data] ∧
     ([] : List AutocompleteSuggestion).filter
       (dotFilter (capStr [] 1) (capStr [] 2)) = []) ∧
    getValueAtPathFromObj (some (JVal.jnum 0)) "x".data = none ∧
    (findSuggestions refDoc "data.nonexistent.x" 18 {}).isOpen = false :=
  ⟨⟨by decide, by decide, rfl⟩,
   (c7_never_throws none "x".data (JVal.jnum 0) (by decide) "x".data []
      (by decide) [] {} 0 0 [] rfl).2.2.1,
   (c7_never_throws none "x".data (JVal.jnum 0) (by decide) "x".data []
      (by decide) [] {} 0 0 [] rfl).2.2.2.2.1⟩

end Autocomplete

namespace Autocomplete

/-- Membership in the ordered-set insertion. -/
theorem mem_insertKey (acc : List String) (k x : String) :
    x ∈ insertKey acc k ↔ x ∈ acc ∨ x = k := by
  unfold insertKey
  split
  · rename_i h
    constructor
    · exact Or.inl
    · rintro (hx | rfl)
      · exact hx
      · exact h
  · simp [List.mem_append]

/-- Membership in the merged key set contributed by one element's fields. -/
theorem mem_keys_foldl (fs : List (String × JVal)) (acc : List String)
    (x : String) :
    x ∈ fs.foldl (fun a kv => insertKey a kv.1) acc ↔
      x ∈ acc ∨ ∃ kv ∈ fs, kv.1 = x := by
  induction fs generalizing acc with
  | nil => simp
  | cons kv fs ih =>
      rw [List.foldl_cons, ih, mem_insertKey]
      constructor
      · rintro ((hx | rfl) | ⟨kv', h1, h2⟩)
        · exact Or.inl hx
        · exact Or.inr ⟨kv, List.mem_cons_self kv fs, rfl⟩
        · exact Or.inr ⟨kv', List.mem_cons_of_mem kv h1, h2⟩
      · rintro (hx | ⟨kv', h1, h2⟩)
        · exact Or.inl (Or.inl hx)
        · rcases List.mem_cons.mp h1 with rfl | h1'
          · exact Or.inl (Or.inr h2.symm)
          · exact Or.inr ⟨kv', h1', h2⟩

/-- Membership in the key union merged across the sampled elements. -/
theorem mem_mergedKeys (es : List JVal) (acc : List String) (x : String) :
    x ∈ es.foldl
        (fun acc e => (objFieldsOf e).foldl (fun a kv => insertKey a kv.1) acc)
        acc ↔
      x ∈ acc ∨ ∃ e ∈ es, ∃ kv ∈ objFieldsOf e, kv.1 = x := by
  induction es generalizing acc with
  | nil => simp
  | cons e es ih =>
      rw [List.foldl_cons, ih, mem_keys_foldl]
      constructor
      · rintro ((hx | ⟨kv, h1, h2⟩) | ⟨e', h1, h2⟩)
        · exact Or.inl hx
        · exact Or.inr ⟨e, List.mem_cons_self e es, kv, h1, h2⟩
        · exact Or.inr ⟨e', List.mem_cons_of_mem e h1, h2⟩
      · rintro (hx | ⟨e', h1, h2⟩)
        · exact Or.inl (Or.inl hx)
        · rcases List.mem_cons.mp h1 with rfl | h1'
          · exact Or.inl (Or.inr h2)
          · exact Or.inr ⟨e', h1', h2⟩

end Autocomplete

namespace Autocomplete

set_option maxRecDepth 1000000 in
/-- C6: in callback-parameter context, when the matched array path resolves to
a non-empty array, only the first ten elements are sampled; with a base member
path present, that sub-path is resolved against the first sampled element and
its immediate keys are offered; with no base path, the candidates are exactly
the keys merged across all sampled elements that case-insensitively
prefix-match the partial key, each with value and type taken from the first
sampled element; concretely, `data.posts.map(p => p.` over the reference
document offers `id` and `title`. -/
theorem c6_callback_candidates (doc : Option JVal) (st : SuggestState)
    (cursor : Nat) (ap tail : List Char) (xs : List JVal)
    (first : JVal) (rest : List JVal)
    (hres : getValueAtPath doc ap = some (JVal.jarr xs))
    (hsam : (xs.take 10).filter isJObj = first :: rest) :
    (∀ e, e ∈ first :: rest → e ∈ xs.take 10) ∧
    (∀ st', callbackResult doc st cursor ap tail = some st' →
      ((splitAfterParam tail).1 ≠ [] →
        st'.suggestions =
          getKeysSuggestions
            (getValueAtPathFromObj (some first) (splitAfterParam tail).1)
            (splitAfterParam tail).2) ∧
      ((splitAfterParam tail).1 = [] →
        (∀ s, s ∈ st'.suggestions →
          (∃ e, e ∈ first :: rest ∧ ∃ kv, kv ∈ objFieldsOf e ∧ kv.1 = s.path) ∧
          lcStartsWith ((splitAfterParam tail).2.map Char.toLower)
            (s.path.data.map Char.toLower) = true ∧
          s.value = lookupField (objFieldsOf first) s.path.data ∧
          s.type = getType (lookupField (objFieldsOf first) s.path.data) ∧
          s.displayPath = s.path) ∧
        (∀ k, (∃ e, e ∈ first :: rest ∧ ∃ kv, kv ∈ objFieldsOf e ∧ kv.1 = k) →
          lcStartsWith ((splitAfterParam tail).2.map Char.toLower)
            (k.data.map Char.toLower) = true →
          ∃ s, s ∈ st'.suggestions ∧ s.path = k))) ∧
    (findSuggestions refDoc "data.posts.map(p => p." 22 {}).suggestions.map
        (fun s => (s.path, s.type)) = [("id", "number"), ("title", "string")] ∧
    (findSuggestions refDoc "data.posts.map(p => p." 22 {}).isOpen = true ∧
    (findSuggestions refDoc "data.posts.map(p => p." 22 {}).cbRange =
      some (22, 22) := by
  refine ⟨?_, ?_, by decide, by decide, by decide⟩
  · intro e he
    rw [← hsam] at he
    exact (List.mem_filter.mp he).1
  · intro st' h
    unfold callbackResult at h
    rw [hres] at h
    dsimp only at h
    by_cases hlen : xs.length > 0
    case neg => rw [if_neg hlen] at h; cases h
    rw [if_pos hlen, hsam] at h
    dsimp only at h
    have hfirst : isJObj first = true := by
      have hm : first ∈ (xs.take 10).filter isJObj := by
        rw [hsam]; exact List.mem_cons_self first rest
      exact (List.mem_filter.mp hm).2
    split at h
    · -- the merged-union branch was taken
      rename_i hc
      split at h
      · rename_i hlen2
        cases h
        dsimp only
        have hbp0 : (splitAfterParam tail).1 = [] := by
          have h1 : (splitAfterParam tail).1.isEmpty = true := by
            cases hq : (splitAfterParam tail).1.isEmpty with
            | false => rw [hq] at hc; simp at hc
            | true => rfl
          cases hq : (splitAfterParam tail).1 with
          | nil => rfl
          | cons a l => rw [hq] at h1; exact Bool.noConfusion h1
        constructor
        · intro hbp
          exact absurd hbp0 hbp
        · intro _
          constructor
          · intro s hs
            obtain ⟨key, hkey, rfl⟩ := List.mem_map.mp hs
            obtain ⟨hkmem, hkpref⟩ := List.mem_filter.mp hkey
            obtain ⟨e, he, kv, hkv, hkv1⟩ :=
              ((mem_mergedKeys _ _ _).mp hkmem).resolve_left (by simp)
            exact ⟨⟨e, he, kv, hkv, hkv1⟩, hkpref, rfl, rfl, rfl⟩
          · intro k hk hkpref
            exact ⟨_, List.mem_map_of_mem _ (List.mem_filter.mpr
              ⟨(mem_mergedKeys _ _ _).mpr (Or.inr hk), hkpref⟩), rfl⟩
      · cases h
    · -- the sub-path branch was taken
      rename_i hc
      split at h
      · -- a base member path is present
        rename_i hsv
        split at h
        · rename_i hlen2
          cases h
          dsimp only
          constructor
          · intro hbp
            rfl
          · intro hbp
            exfalso
            rw [hbp] at hsv
            simp at hsv
        · cases h
      · -- no base member path
        rename_i hsv
        split at h
        · rename_i hlen2
          cases h
          dsimp only
          constructor
          · intro hbp
            cases hq : (splitAfterParam tail).1 with
            | nil => exact absurd hq hbp
            | cons a l => exact absurd (by rw [hq]; rfl) hsv
          · intro hbp
            exfalso
            have hbpe : (splitAfterParam tail).1.isEmpty = true := by rw [hbp]; rfl
            have hmkE :
                (List.foldl
                  (fun acc e => List.foldl (fun a kv => insertKey a kv.1) acc
                    (objFieldsOf e)) [] (first :: rest)).isEmpty = true := by
              cases hq :
                  (List.foldl
                    (fun acc e => List.foldl (fun a kv => insertKey a kv.1) acc
                      (objFieldsOf e)) [] (first :: rest)).isEmpty with
              | false => exact absurd (by rw [hbpe, hq]; rfl) hc
              | true => rfl
            have hmk :
                (List.foldl
                  (fun acc e => List.foldl (fun a kv => insertKey a kv.1) acc
                    (objFieldsOf e)) [] (first :: rest)) = [] := by
              cases hq :
                  (List.foldl
                    (fun acc e => List.foldl (fun a kv => insertKey a kv.1) acc
                      (objFieldsOf e)) [] (first :: rest)) with
              | nil => rfl
              | cons a l => rw [hq] at hmkE; exact Bool.noConfusion hmkE
            obtain ⟨fs, rfl⟩ : ∃ fs, first = JVal.jobj fs := by
              cases first <;> first | exact ⟨_, rfl⟩ | exact Bool.noConfusion hfirst
            have hfs : fs = [] := by
              cases hfs : fs with
              | nil => rfl
              | cons kv fs2 =>
                  have hmem : kv.1 ∈
                      (List.foldl
                        (fun acc e => List.foldl (fun a kv => insertKey a kv.1) acc
                          (objFieldsOf e)) [] (JVal.jobj fs :: rest)) := by
                    refine (mem_mergedKeys _ _ _).mpr (Or.inr
                      ⟨JVal.jobj fs, List.mem_cons_self _ _, kv, ?_, rfl⟩)
                    rw [hfs]
                    exact List.mem_cons_self kv fs2
                  rw [hmk] at hmem
                  cases hmem
            subst hfs
            simp [getKeysSuggestions, objFieldsOf] at hlen2
        · cases h

end Autocomplete

namespace Autocomplete

set_option maxRecDepth 1000000 in
/-- Witness for `c6_callback_candidates`: the reference document's `posts`
array, sampled as its two object elements. -/
theorem c6_callback_candidates_witness :
    getValueAtPath refDoc "data.posts".data =
      some (JVal.jarr
        [JVal.jobj [("id", JVal.jnum 1), ("title", JVal.jstr "A")],
         JVal.jobj [("id", JVal.jnum 2), ("title", JVal.jstr "B")]]) ∧
    (([JVal.jobj [("id", JVal.jnum 1), ("title", JVal.jstr "A")],
       JVal.jobj [("id", JVal.jnum 2), ("title", JVal.jstr "B")]].take 10).filter
        isJObj =
      JVal.jobj [("id", JVal.jnum 1), ("title", JVal.jstr "A")] ::
        [JVal.jobj [("id", JVal.jnum 2), ("title", JVal.jstr "B")]]) ∧
    (findSuggestions refDoc "data.posts.map(p => p." 22 {}).suggestions.map
      (fun s => (s.path, s.type)) = [("id", "number"), ("title", "string")] :=
  ⟨rfl, rfl,
   (c6_callback_candidates refDoc {} 22 "data.posts".data []
      [JVal.jobj [("id", JVal.jnum 1), ("title", JVal.jstr "A")],
       JVal.jobj [("id", JVal.jnum 2), ("title", JVal.jstr "B")]]
      (JVal.jobj [("id", JVal.jnum 1), ("title", JVal.jstr "A")])
      [JVal.jobj [("id", JVal.jnum 2), ("title", JVal.jstr "B")]]
      rfl rfl).2.2.1⟩

end Autocomplete

namespace Autocomplete

/-- C4 (amended): `findSuggestions` tries the contexts in the fixed order
snippet → callback-parameter → bracket-notation → dot-notation.  A snippet
match always ends classification with the snippet update; a callback attempt
that produces candidates ends it with exactly those; a callback context whose
pattern matches but yields no candidates falls through, after which a bracket
match ends classification, and otherwise the dot pattern decides between the
dot update and the closed state. -/
theorem c4_context_priority (doc : Option JVal) (code : String) (cursor : Nat)
    (st0 : SuggestState) :
    (∀ suf caps, searchRe snippetRe (code.data.take cursor) = some (suf, caps) →
      findSuggestions doc code cursor st0 =
        snippetUpdate { st0 with cbRange := none } cursor suf.length) ∧
    (searchRe snippetRe (code.data.take cursor) = none →
      ∀ st2, callbackAttempt doc { st0 with cbRange := none } cursor
          (code.data.take cursor) = some st2 →
        findSuggestions doc code cursor st0 = st2) ∧
    (searchRe snippetRe (code.data.take cursor) = none →
      callbackAttempt doc { st0 with cbRange := none } cursor
        (code.data.take cursor) = none →
      ∀ suf caps, searchRe bracketRe (code.data.take cursor) = some (suf, caps) →
        findSuggestions doc code cursor st0 =
          bracketUpdate (allPathsOf doc) { st0 with cbRange := none } cursor
            suf.length caps) ∧
    (searchRe snippetRe (code.data.take cursor) = none →
      callbackAttempt doc { st0 with cbRange := none } cursor
        (code.data.take cursor) = none →
      searchRe bracketRe (code.data.take cursor) = none →
      ∀ suf caps, searchRe dotRe (code.data.take cursor) = some (suf, caps) →
        findSuggestions doc code cursor st0 =
          dotUpdate (allPathsOf doc) { st0 with cbRange := none } cursor
            suf.length caps) ∧
    (searchRe snippetRe (code.data.take cursor) = none →
      callbackAttempt doc { st0 with cbRange := none } cursor
        (code.data.take cursor) = none →
      searchRe bracketRe (code.data.take cursor) = none →
      searchRe dotRe (code.data.take cursor) = none →
      findSuggestions doc code cursor st0 =
        { st0 with cbRange := none, isOpen := false }) := by
  refine ⟨?_, ?_, ?_, ?_, ?_⟩
  · intro suf caps h1
    unfold findSuggestions
    dsimp only
    rw [h1]
  · intro h1 st2 h2
    unfold findSuggestions
    dsimp only
    rw [h1, h2]
  · intro h1 h2 suf caps h3
    unfold findSuggestions
    dsimp only
    rw [h1, h2, h3]
  · intro h1 h2 h3 suf caps h4
    unfold findSuggestions
    dsimp only
    rw [h1, h2, h3, h4]
  · intro h1 h2 h3 h4
    unfold findSuggestions
    dsimp only
    rw [h1, h2, h3, h4]

set_option maxRecDepth 1000000 in
/-- Witness for `c4_context_priority`: the snippet trigger `x/`. -/
theorem c4_context_priority_witness :
    searchRe snippetRe (("x/" : String).data.take 2) = some ("/".data, []) ∧
    findSuggestions none "x/" 2 {} =
      snippetUpdate { ({} : SuggestState) with cbRange := none } 2
        ("/".data).length :=
  ⟨by decide, (c4_context_priority none "x/" 2 {}).1 "/".data [] (by decide)⟩

set_option maxRecDepth 1000000 in
/-- C4 counterexample: over the document `\x7b "a": [1] \x7d` with the buffer
`data.a.map(data => data.` the callback-parameter context matches — its
pattern matches the text before the cursor and the document is truthy — yet
classification does not stop there: the callback yields no candidates (the
sampled array holds no objects), a later context is consulted, and the final
open suggestion list `[data.a]` comes from the dot-notation context. -/
theorem c4_priority_counterexample :
    (cbParams "data.a.map(data => data.".data).isSome = true ∧
    jsTruthy doc₀ = true ∧
    callbackAttempt doc₀ { ({} : SuggestState) with cbRange := none } 24
      "data.a.map(data => data.".data = none ∧
    (findSuggestions doc₀ "data.a.map(data => data." 24 {}).isOpen = true ∧
    (findSuggestions doc₀ "data.a.map(data => data." 24 {}).suggestions.map
      (fun s => s.path) = ["data.a"] :=
  ⟨by decide, by decide, rfl, by decide, by decide⟩

end Autocomplete

namespace Autocomplete

/-- Prefix test under a common left factor. -/
theorem lcStartsWith_append (x u v : List Char) :
    lcStartsWith (x ++ u) (x ++ v) = lcStartsWith u v := by
  induction x with
  | nil => rfl
  | cons c x ih => simp [lcStartsWith, ih]

/-- Every list extends itself. -/
theorem lcStartsWith_self_append (x v : List Char) :
    lcStartsWith x (x ++ v) = true := by
  have h := lcStartsWith_append x [] v
  simpa using h

/-- A prefix is no longer than the whole. -/
theorem lcStartsWith_length_le (a : List Char) :
    ∀ b, lcStartsWith a b = true → a.length ≤ b.length := by
  induction a with
  | nil => intro b _; simp
  | cons c a ih =>
      intro b h
      cases b with
      | nil => exact Bool.noConfusion h
      | cons d b =>
          simp only [lcStartsWith, Bool.and_eq_true] at h
          simpa using ih b h.2

/-- Characterisation of the prefix test. -/
theorem lcStartsWith_iff (a : List Char) :
    ∀ b, lcStartsWith a b = true ↔ ∃ t, b = a ++ t := by
  induction a with
  | nil => intro b; simp [lcStartsWith]
  | cons c a ih =>
      intro b
      cases b with
      | nil =>
          simp [lcStartsWith]
      | cons d b =>
          simp only [lcStartsWith, Bool.and_eq_true, beq_iff_eq, ih]
          constructor
          · rintro ⟨rfl, t, rfl⟩
            exact ⟨t, rfl⟩
          · rintro ⟨t, ht⟩
            injection ht with h1 h2
            exact ⟨h1.symm, t, h2⟩

/-- `lcSplit` never returns the empty list of pieces. -/
theorem lcSplit_ne_nil (p : Char → Bool) (l : List Char) : lcSplit p l ≠ [] := by
  cases l with
  | nil => simp [lcSplit]
  | cons c t =>
      rw [lcSplit]
      split
      · simp
      · split
        · simp
        · simp

/-- The first piece of a split of `u ++ t` is `u` itself when no character of
`u` is a separator and `t` is empty or starts with a separator. -/
theorem lcSplit_head_sep (p : Char → Bool) (u : List Char)
    (hu : u.all (fun c => !p c) = true) (t : List Char)
    (ht : t = [] ∨ ∃ c t2, t = c :: t2 ∧ p c = true) :
    (lcSplit p (u ++ t)).headD [] = u := by
  induction u with
  | nil =>
      rcases ht with rfl | ⟨c, t2, rfl, hc⟩
      · rfl
      · simp [lcSplit, hc]
  | cons c u ih =>
      simp only [List.all_cons, Bool.and_eq_true, Bool.not_eq_true'] at hu
      rw [List.cons_append, lcSplit, if_neg (by rw [hu.1]; exact Bool.noConfusion)]
      have ih2 := ih (by simpa using hu.2)
      cases hq : lcSplit p (u ++ t) with
      | nil => exact absurd hq (lcSplit_ne_nil p _)
      | cons h r =>
          rw [hq] at ih2
          simp only [List.headD_cons] at ih2
          simp [ih2]

/-- Span of a run of satisfying characters followed by a non-satisfying
boundary. -/
theorem span_run (p : Char → Bool) (ds : List Char)
    (hds : ds.all p = true) (r : List Char)
    (hr : r = [] ∨ ∃ c r2, r = c :: r2 ∧ p c = false) :
    (ds ++ r).span p = (ds, r) := by
  induction ds with
  | nil =>
      rcases hr with rfl | ⟨c, r2, rfl, hc⟩
      · rfl
      · simp [List.span_eq_take_drop, hc]
  | cons d ds ih =>
      simp only [List.all_cons, Bool.and_eq_true] at hds
      have ih2 := ih hds.2
      simp only [List.span_eq_take_drop] at ih2 ⊢
      injection ih2 with ih3 ih4
      simp [List.takeWhile_cons, hds.1, ih3, ih4]

/-- `parseIdx` on a bracketed digit run followed by a tail that is empty or
starts with a separator-like character. -/
theorem parseIdx_run (ds : List Char) (hne : ds ≠ [])
    (hds : ds.all Char.isDigit = true) (t : List Char) :
    parseIdx ('[' :: (ds ++ ([']'] ++ t))) = some ds := by
  rw [parseIdx]
  have hsp : ((ds ++ ([']'] ++ t))).span Char.isDigit = (ds, ']' :: t) := by
    have := span_run Char.isDigit ds hds (']' :: t)
      (Or.inr ⟨']', t, rfl, by decide⟩)
    simpa using this
  rw [hsp]
  cases t with
  | nil => simp [hne]
  | cons c t2 => simp [hne]

end Autocomplete

namespace Autocomplete

/-- String equality from data equality. -/
theorem strExt {a b : String} (h : a.data = b.data) : a = b := congrArg String.mk h

/-- `objPaths` is the flat concatenation of the field kids' blocks. -/
theorem objPaths_eq (pre : String) (fs : List (String × JVal)) :
    objPaths pre fs =
      (fs.map (fun kv =>
        (⟨'.' :: kv.1.data, some kv.2, getType (some kv.2), kv.1,
          if isObjLike kv.2 then some kv.2 else none⟩ : Kid))).flatMap
        (blockOf pre) := by
  induction fs with
  | nil => rfl
  | cons kv fs ih =>
      obtain ⟨k, v⟩ := kv
      rw [objPaths, ih, List.map_cons, List.flatMap_cons]
      have hpre : pre ++ "." ++ k = pre ++ String.mk ('.' :: k.data) := by
        apply strExt
        simp [String.data_append]
      rw [blockOf]
      dsimp only [kidEntry]
      by_cases hob : isObjLike v = true
      · rw [if_pos hob, if_pos hob, hpre]
      · rw [if_neg hob, if_neg hob, hpre]

/-- `arrMethodSuggs` is the flat concatenation of the six method kids'
blocks. -/
theorem arrMethodSuggs_eq (pre : String) (len : Nat) :
    arrMethodSuggs pre len = (methodKids len).flatMap (blockOf pre) := by
  rfl

/-- `arrIndexedPaths` is the flat concatenation of the indexed kids'
blocks. -/
theorem arrIndexedPaths_eq (pre : String) (xs : List JVal) :
    ∀ i, arrIndexedPaths pre i xs = (idxKids i xs).flatMap (blockOf pre) := by
  induction xs with
  | nil => intro i; rfl
  | cons x xs ih =>
      intro i
      rw [arrIndexedPaths, idxKids]
      by_cases hi : i < 3
      · rw [if_pos hi, if_pos hi, List.flatMap_cons, ih]
        have hpre : pre ++ "[" ++ toString i ++ "]" =
            pre ++ String.mk ('[' :: (toString i).data ++ [']']) := by
          apply strExt
          simp [String.data_append]
        rw [blockOf]
        dsimp only [kidEntry]
        by_cases hob : isObjLike x = true
        · rw [if_pos hob, if_pos hob, hpre]
        · rw [if_neg hob, if_neg hob, hpre]
      · rw [if_neg hi, if_neg hi]
        rfl

/-- `getAllPaths` is the flat concatenation of the kids' blocks. -/
theorem getAllPaths_eq (v : JVal) (pre : String) :
    getAllPaths v pre = (kidsOf v).flatMap (blockOf pre) := by
  cases v with
  | jobj fs => rw [getAllPaths, kidsOf]; exact objPaths_eq pre fs
  | jarr xs =>
      rw [getAllPaths, kidsOf, List.flatMap_append, arrMethodSuggs_eq,
        arrIndexedPaths_eq]
  | jnull => rfl
  | jbool b => rfl
  | jnum n => rfl
  | jstr s => rfl

/-- Indexed kids' separators start with `[`. -/
theorem idxKids_sep (xs : List JVal) :
    ∀ i kid, kid ∈ idxKids i xs → ∃ r, kid.sep = '[' :: r := by
  induction xs with
  | nil => intro i kid h; cases h
  | cons x xs ih =>
      intro i kid h
      rw [idxKids] at h
      by_cases hi : i < 3
      · rw [if_pos hi] at h
        rcases List.mem_cons.mp h with rfl | h2
        · exact ⟨_, rfl⟩
        · exact ih _ _ h2
      · rw [if_neg hi] at h; cases h

/-- Every kid separator starts with `.` or `[`. -/
theorem kid_sep_head (v : JVal) (kid : Kid) (hk : kid ∈ kidsOf v) :
    (∃ r, kid.sep = '.' :: r) ∨ ∃ r, kid.sep = '[' :: r := by
  cases v with
  | jobj fs =>
      rw [kidsOf] at hk
      obtain ⟨kv, _, rfl⟩ := List.mem_map.mp hk
      exact Or.inl ⟨kv.1.data, rfl⟩
  | jarr xs =>
      rw [kidsOf] at hk
      rcases List.mem_append.mp hk with hm | hm
      · rw [methodKids] at hm
        simp only [List.mem_cons, List.not_mem_nil, or_false] at hm
        rcases hm with rfl | rfl | rfl | rfl | rfl | rfl <;>
          exact Or.inl ⟨_, rfl⟩
      · exact Or.inr (idxKids_sep xs 0 kid hm)
  | jnull => cases hk
  | jbool b => cases hk
  | jnum n => cases hk
  | jstr s => cases hk

end Autocomplete

namespace Autocomplete

/-- An indexed kid's subtree value is an element of the array. -/
theorem idxKids_sub (xs : List JVal) :
    ∀ i kid w, kid ∈ idxKids i xs → kid.sub = some w → w ∈ xs := by
  induction xs with
  | nil => intro i kid w h _; cases h
  | cons x xs ih =>
      intro i kid w h hs
      rw [idxKids] at h
      by_cases hi : i < 3
      · rw [if_pos hi] at h
        rcases List.mem_cons.mp h with rfl | h2
        · dsimp only at hs
          split at hs
          · injection hs with hs2
            exact hs2 ▸ List.mem_cons_self x xs
          · cases hs
        · exact List.mem_cons_of_mem x (ih _ _ _ h2 hs)
      · rw [if_neg hi] at h; cases h

/-- A recursion step of the walk goes strictly down in size. -/
theorem kid_sub_sizeOf (v : JVal) (kid : Kid) (w : JVal)
    (hk : kid ∈ kidsOf v) (hs : kid.sub = some w) : sizeOf w < sizeOf v := by
  cases v with
  | jobj fs =>
      rw [kidsOf] at hk
      obtain ⟨kv, hkv, rfl⟩ := List.mem_map.mp hk
      dsimp only at hs
      split at hs
      · injection hs with hs2
        subst hs2
        have h1 : sizeOf kv < sizeOf fs := List.sizeOf_lt_of_mem hkv
        obtain ⟨k2, v2⟩ := kv
        simp only [Prod.mk.sizeOf_spec] at h1
        simp only [JVal.jobj.sizeOf_spec]
        omega
      · cases hs
  | jarr xs =>
      rw [kidsOf] at hk
      rcases List.mem_append.mp hk with hm | hm
      · rw [methodKids] at hm
        simp only [List.mem_cons, List.not_mem_nil, or_false] at hm
        rcases hm with rfl | rfl | rfl | rfl | rfl | rfl <;> cases hs
      · have hw : w ∈ xs := idxKids_sub xs 0 kid w hm hs
        have h1 : sizeOf w < sizeOf xs := List.sizeOf_lt_of_mem hw
        simp only [JVal.jarr.sizeOf_spec]
        omega
  | jnull => cases hk
  | jbool b => cases hk
  | jnum n => cases hk
  | jstr s => cases hk

/-- Shape of every indexed path: the walk's prefix extended by a non-empty
suffix starting `.` or `[` (size-bounded recursion). -/
theorem getAllPaths_shape (n : Nat) :
    ∀ v : JVal, sizeOf v ≤ n → ∀ pre s, s ∈ getAllPaths v pre →
      ∃ t, s.path.data = pre.data ++ t ∧
        (t.head? = some '.' ∨ t.head? = some '[') := by
  induction n with
  | zero =>
      intro v hv
      exfalso
      cases v <;> simp at hv
  | succ n ih =>
      intro v hv pre s hs
      rw [getAllPaths_eq] at hs
      obtain ⟨kid, hkid, hblk⟩ := List.mem_flatMap.mp hs
      rw [blockOf] at hblk
      rcases List.mem_cons.mp hblk with rfl | hsub
      · refine ⟨kid.sep, ?_, ?_⟩
        · show (pre ++ String.mk kid.sep).data = pre.data ++ kid.sep
          simp [String.data_append]
        · rcases kid_sep_head v kid hkid with ⟨r, hr⟩ | ⟨r, hr⟩
          · rw [hr]; exact Or.inl rfl
          · rw [hr]; exact Or.inr rfl
      · cases hq : kid.sub with
        | none => rw [hq] at hsub; cases hsub
        | some w =>
            rw [hq] at hsub
            have hw : sizeOf w ≤ n := by
              have := kid_sub_sizeOf v kid w hkid hq
              omega
            obtain ⟨t, ht, hh⟩ := ih w hw (pre ++ String.mk kid.sep) s hsub
            refine ⟨kid.sep ++ t, ?_, ?_⟩
            · rw [ht]
              simp [String.data_append]
            · rcases kid_sep_head v kid hkid with ⟨r, hr⟩ | ⟨r, hr⟩
              · rw [hr]; exact Or.inl rfl
              · rw [hr]; exact Or.inr rfl

/-- Shape of every indexed path. -/
theorem getAllPaths_shape_mem (v : JVal) (pre : String)
    (s : AutocompleteSuggestion) (hs : s ∈ getAllPaths v pre) :
    ∃ t, s.path.data = pre.data ++ t ∧
      (t.head? = some '.' ∨ t.head? = some '[') :=
  getAllPaths_shape (sizeOf v) v (le_refl _) pre s hs

end Autocomplete

namespace Autocomplete

/-- Field-wise reading of `goodFields`. -/
theorem goodFields_mem (fs : List (String × JVal)) (h : goodFields fs = true) :
    ∀ kv ∈ fs, goodKeyB kv.1 = true ∧ goodDoc kv.2 = true := by
  induction fs with
  | nil => intro kv hkv; cases hkv
  | cons kv2 fs ih =>
      intro kv hkv
      obtain ⟨k, v⟩ := kv2
      rw [goodFields] at h
      simp only [Bool.and_eq_true] at h
      rcases List.mem_cons.mp hkv with rfl | h2
      · exact ⟨h.1.1, h.1.2⟩
      · exact ih h.2 kv h2

/-- Reading of `goodDoc` on an object. -/
theorem goodDoc_obj (fs : List (String × JVal))
    (h : goodDoc (JVal.jobj fs) = true) :
    nodupB (fs.map (fun kv => kv.1)) = true ∧
    ∀ kv ∈ fs, goodKeyB kv.1 = true ∧ goodDoc kv.2 = true := by
  rw [goodDoc] at h
  simp only [Bool.and_eq_true] at h
  exact ⟨h.1, goodFields_mem fs h.2⟩

/-- Element-wise reading of `goodElems`. -/
theorem goodElems_mem (xs : List JVal) (h : goodElems xs = true) :
    ∀ x ∈ xs, goodDoc x = true := by
  induction xs with
  | nil => intro x hx; cases hx
  | cons y xs ih =>
      intro x hx
      rw [goodElems] at h
      simp only [Bool.and_eq_true] at h
      rcases List.mem_cons.mp hx with rfl | h2
      · exact h.1
      · exact ih h.2 x h2

/-- Reading of `goodDoc` on an array. -/
theorem goodDoc_arr (xs : List JVal) (h : goodDoc (JVal.jarr xs) = true) :
    ∀ x ∈ xs, goodDoc x = true := by
  rw [goodDoc] at h
  exact goodElems_mem xs h

/-- Full characterisation of indexed kids. -/
theorem idxKids_char (xs : List JVal) :
    ∀ i kid, kid ∈ idxKids i xs →
      ∃ j, i ≤ j ∧ j < 3 ∧ kid.sep = '[' :: ((toString j).data ++ [']']) ∧
        kid.disp = "[" ++ toString j ++ "]" := by
  induction xs with
  | nil => intro i kid h; cases h
  | cons x xs ih =>
      intro i kid h
      rw [idxKids] at h
      by_cases hi : i < 3
      · rw [if_pos hi] at h
        rcases List.mem_cons.mp h with rfl | h2
        · exact ⟨i, le_refl i, hi, rfl, rfl⟩
        · obtain ⟨j, hj1, hj2, hj3, hj4⟩ := ih (i + 1) kid h2
          exact ⟨j, by omega, hj2, hj3, hj4⟩
      · rw [if_neg hi] at h; cases h

/-- Kid separators of a good node are atomic segments. -/
theorem kid_atomic (v : JVal) (kid : Kid) (hv : goodDoc v = true)
    (hk : kid ∈ kidsOf v) : atomicSep kid.sep := by
  cases v with
  | jobj fs =>
      rw [kidsOf] at hk
      obtain ⟨kv, hkv, rfl⟩ := List.mem_map.mp hk
      obtain ⟨hkey, _⟩ := (goodDoc_obj fs hv).2 kv hkv
      rw [goodKeyB] at hkey
      simp only [Bool.and_eq_true] at hkey
      refine Or.inl ⟨kv.1.data, rfl, ?_, hkey.2⟩
      intro hnil
      rw [hnil] at hkey
      exact absurd hkey.1 (by decide)
  | jarr xs =>
      rw [kidsOf] at hk
      rcases List.mem_append.mp hk with hm | hm
      · rw [methodKids] at hm
        simp only [List.mem_cons, List.not_mem_nil, or_false] at hm
        rcases hm with rfl | rfl | rfl | rfl | rfl | rfl
        · exact Or.inl ⟨"length".data, rfl, by decide, by decide⟩
        · exact Or.inl ⟨"map()".data, rfl, by decide, by decide⟩
        · exact Or.inl ⟨"filter()".data, rfl, by decide, by decide⟩
        · exact Or.inl ⟨"find()".data, rfl, by decide, by decide⟩
        · exact Or.inl ⟨"reduce()".data, rfl, by decide, by decide⟩
        · exact Or.inl ⟨"forEach()".data, rfl, by decide, by decide⟩
      · obtain ⟨j, _, hj2, hj3, _⟩ := idxKids_char xs 0 kid hm
        rw [hj3]
        refine Or.inr ⟨(toString j).data, rfl, ?_, ?_⟩ <;>
          (interval_cases j <;> decide)
  | jnull => cases hk
  | jbool b => cases hk
  | jnum n => cases hk
  | jstr s => cases hk

/-- A kid's display text is its dedup key. -/
theorem kid_disp (v : JVal) (kid : Kid) (hk : kid ∈ kidsOf v) :
    kid.disp = String.mk (kidKey kid) := by
  cases v with
  | jobj fs =>
      rw [kidsOf] at hk
      obtain ⟨kv, _, rfl⟩ := List.mem_map.mp hk
      rfl
  | jarr xs =>
      rw [kidsOf] at hk
      rcases List.mem_append.mp hk with hm | hm
      · rw [methodKids] at hm
        simp only [List.mem_cons, List.not_mem_nil, or_false] at hm
        rcases hm with rfl | rfl | rfl | rfl | rfl | rfl <;> rfl
      · obtain ⟨j, _, _, hj3, hj4⟩ := idxKids_char xs 0 kid hm
        rw [hj4]
        have hkk : kidKey kid = kid.sep := by
          rw [kidKey, hj3]
          rfl
        rw [hkk, hj3]
        apply strExt
        simp [String.data_append]
  | jnull => cases hk
  | jbool b => cases hk
  | jnum n => cases hk
  | jstr s => cases hk

/-- A kid's subtree of a good node is good. -/
theorem kid_sub_good (v : JVal) (kid : Kid) (w : JVal) (hv : goodDoc v = true)
    (hk : kid ∈ kidsOf v) (hs : kid.sub = some w) : goodDoc w = true := by
  cases v with
  | jobj fs =>
      rw [kidsOf] at hk
      obtain ⟨kv, hkv, rfl⟩ := List.mem_map.mp hk
      dsimp only at hs
      split at hs
      · injection hs with hs2
        exact hs2 ▸ ((goodDoc_obj fs hv).2 kv hkv).2
      · cases hs
  | jarr xs =>
      rw [kidsOf] at hk
      rcases List.mem_append.mp hk with hm | hm
      · rw [methodKids] at hm
        simp only [List.mem_cons, List.not_mem_nil, or_false] at hm
        rcases hm with rfl | rfl | rfl | rfl | rfl | rfl <;> cases hs
      · exact goodDoc_arr xs hv w (idxKids_sub xs 0 kid w hm hs)
  | jnull => cases hk
  | jbool b => cases hk
  | jnum n => cases hk
  | jstr s => cases hk

end Autocomplete

namespace Autocomplete

/-- `nodupB` gives pairwise distinctness. -/
theorem nodupB_pairwise (ks : List String) (h : nodupB ks = true) :
    ks.Pairwise (fun a b => a ≠ b) := by
  induction ks with
  | nil => exact List.Pairwise.nil
  | cons k ks ih =>
      rw [nodupB] at h
      simp only [Bool.and_eq_true] at h
      have hnot : k ∉ ks := by simpa using h.1
      exact List.Pairwise.cons
        (fun b hb heq => hnot (by rw [heq]; exact hb)) (ih h.2)

/-- The six method kids have pairwise distinct keys. -/
theorem methodKids_pairwise (len : Nat) :
    (methodKids len).Pairwise (fun a b => kidKey a ≠ kidKey b) := by
  rw [← List.pairwise_map]
  have hmap : (methodKids len).map kidKey =
      ["length".data, "map()".data, "filter()".data, "find()".data,
       "reduce()".data, "forEach()".data] := rfl
  rw [hmap]
  decide

/-- Indexed kids have pairwise distinct keys. -/
theorem idxKids_pairwise (xs : List JVal) :
    ∀ i, (idxKids i xs).Pairwise (fun a b => kidKey a ≠ kidKey b) := by
  induction xs with
  | nil => intro i; exact List.Pairwise.nil
  | cons x xs ih =>
      intro i
      rw [idxKids]
      by_cases hi : i < 3
      · rw [if_pos hi]
        refine List.Pairwise.cons ?_ (ih (i + 1))
        intro b hb
        obtain ⟨j, hj1, hj2, hj3, _⟩ := idxKids_char xs (i + 1) b hb
        have hkb : kidKey b = '[' :: ((toString j).data ++ [']']) := by
          rw [kidKey, hj3]
          rfl
        rw [hkb]
        show ('[' :: ((toString i).data ++ [']'])) ≠ _
        interval_cases i <;> interval_cases j <;> first | omega | decide
      · rw [if_neg hi]
        exact List.Pairwise.nil

/-- Method keys never collide with index keys. -/
theorem method_idx_key_ne (len : Nat) (xs : List JVal) (a b : Kid)
    (ha : a ∈ methodKids len) (hb : b ∈ idxKids 0 xs) : kidKey a ≠ kidKey b := by
  obtain ⟨j, _, hj2, hj3, _⟩ := idxKids_char xs 0 b hb
  have hkb : kidKey b = '[' :: ((toString j).data ++ [']']) := by
    rw [kidKey, hj3]
    rfl
  rw [methodKids] at ha
  simp only [List.mem_cons, List.not_mem_nil, or_false] at ha
  rw [hkb]
  rcases ha with rfl | rfl | rfl | rfl | rfl | rfl <;>
    · intro heq
      injection heq with h1 _
      exact absurd h1 (by decide)

/-- All kids of a good node have pairwise distinct keys. -/
theorem kid_keys_nodup (v : JVal) (hv : goodDoc v = true) :
    (kidsOf v).Pairwise (fun a b => kidKey a ≠ kidKey b) := by
  cases v with
  | jobj fs =>
      rw [kidsOf, List.pairwise_map]
      have hp := nodupB_pairwise _ (goodDoc_obj fs hv).1
      rw [List.pairwise_map] at hp
      refine hp.imp ?_
      intro kv kv2 hne heq
      exact hne (strExt heq)
  | jarr xs =>
      rw [kidsOf, List.pairwise_append]
      exact ⟨methodKids_pairwise xs.length, idxKids_pairwise xs 0,
        fun a ha b hb => method_idx_key_ne xs.length xs a b ha hb⟩
  | jnull => exact List.Pairwise.nil
  | jbool b => exact List.Pairwise.nil
  | jnum n => exact List.Pairwise.nil
  | jstr s => exact List.Pairwise.nil

end Autocomplete

namespace Autocomplete

/-- A good character is not a path separator. -/
theorem goodChar_not_sep (c : Char) (h : goodChar c = true) :
    (c == '.' || c == '[') = false := by
  rw [goodChar] at h
  simp only [Bool.and_eq_true, Bool.not_eq_true'] at h
  rw [h.1.1, h.1.2]
  rfl

/-- A good key has no separator characters. -/
theorem all_goodChar_not_sep (k : List Char) (h : k.all goodChar = true) :
    k.all (fun c => !(c == '.' || c == '[')) = true := by
  rw [List.all_eq_true] at h ⊢
  intro c hc
  rw [goodChar_not_sep c (h c hc)]
  rfl

/-- Reading of a shaped tail for the split lemma. -/
theorem tailShaped_sepchar (t : List Char) (ht : tailShaped t) :
    t = [] ∨ ∃ c t2, t = c :: t2 ∧ (c == '.' || c == '[') = true := by
  rcases ht with rfl | hh | hh
  · exact Or.inl rfl
  · cases t with
    | nil => exact Option.noConfusion hh
    | cons c t2 =>
        injection hh with hh2
        exact Or.inr ⟨c, t2, rfl, by simp [hh2]⟩
  · cases t with
    | nil => exact Option.noConfusion hh
    | cons c t2 =>
        injection hh with hh2
        exact Or.inr ⟨c, t2, rfl, by simp [hh2]⟩

/-- A non-empty shaped tail breaks a good-character run. -/
theorem all_goodChar_append_tail (k t : List Char) (ht : tailShaped t)
    (hne : t ≠ []) : (k ++ t).all goodChar = false := by
  rcases tailShaped_sepchar t ht with rfl | ⟨c, t2, rfl, hc⟩
  · exact absurd rfl hne
  · rw [List.all_append]
    have hcg : goodChar c = false := by
      rcases Bool.or_eq_true_iff.mp hc with h1 | h1 <;>
        · rw [goodChar, beq_iff_eq.mp h1]
          decide
    simp [hcg]

/-- The source dot filter is constant on a member kid's block: it equals the
case-insensitive prefix test against the kid's key. -/
theorem dotFilter_block_dot (pre : String) (pk k t : List Char)
    (s : AutocompleteSuggestion)
    (hpath : s.path.data = pre.data ++ ('.' :: (k ++ t)))
    (hk : k.all goodChar = true) (hts : tailShaped t) :
    dotFilter pre.data pk s =
      lcStartsWith (pk.map Char.toLower) (k.map Char.toLower) := by
  have hsplit : (lcSplit (fun c => c == '.' || c == '[') (k ++ t)).headD [] = k :=
    lcSplit_head_sep _ k (all_goodChar_not_sep k hk) t (tailShaped_sepchar t hts)
  unfold dotFilter
  rw [hpath]
  dsimp only
  rw [lcStartsWith_self_append, List.drop_left]
  simp only [List.headD_eq_head?_getD] at hsplit
  simp [hsplit]

/-- The source dot filter is constant on an indexed kid's block: it equals the
emptiness of the partial key. -/
theorem dotFilter_block_idx (pre : String) (pk ds t : List Char)
    (s : AutocompleteSuggestion)
    (hpath : s.path.data = pre.data ++ ('[' :: (ds ++ ([']'] ++ t))))
    (hds : ds ≠ []) (hdig : ds.all Char.isDigit = true)
    (hpk : pkOk pk = true) :
    dotFilter pre.data pk s = pk.isEmpty := by
  unfold dotFilter
  rw [hpath]
  dsimp only
  rw [lcStartsWith_self_append, List.drop_left]
  cases pk with
  | nil => simp
  | cons c pk2 =>
      rw [pkOk] at hpk
      simp only [List.isEmpty_cons, Bool.false_or, List.headD_cons] at hpk
      cases ds with
      | nil => exact absurd rfl hds
      | cons d ds2 =>
          have hd : d.isDigit = true := by
            rw [List.all_eq_true] at hdig
            exact hdig d (List.mem_cons_self d ds2)
          have hcd : (c == d) = false := by
            cases hq : c == d with
            | false => rfl
            | true =>
                rw [beq_iff_eq.mp hq] at hpk
                rw [hd] at hpk
                exact Bool.noConfusion hpk
          simp [lcStartsWith, hcd]

end Autocomplete

namespace Autocomplete

/-- An identifier-shaped partial key is never a prefix of a digit run. -/
theorem lcStartsWith_nondigit (c : Char) (pk2 ds : List Char)
    (hdig : ds.all Char.isDigit = true) (hc : c.isDigit = false) :
    lcStartsWith (c :: pk2) ds = false := by
  cases ds with
  | nil => rfl
  | cons d ds2 =>
      have hd : d.isDigit = true := by
        rw [List.all_eq_true] at hdig
        exact hdig d (List.mem_cons_self d ds2)
      have hcd : (c == d) = false := by
        cases hq : c == d with
        | false => rfl
        | true =>
            rw [beq_iff_eq.mp hq, hd] at hc
            exact Bool.noConfusion hc
      simp [lcStartsWith, hcd]

/-- The dedup key of any element of a member kid's block. -/
theorem keyDisplayOf_dot (k t : List Char) (hk : k.all goodChar = true)
    (hts : tailShaped t) :
    keyDisplayOf ('.' :: (k ++ t)) = some (k, k) := by
  have hsplit : (lcSplit (fun c => c == '.' || c == '[') (k ++ t)).headD [] = k :=
    lcSplit_head_sep _ k (all_goodChar_not_sep k hk) t (tailShaped_sepchar t hts)
  unfold keyDisplayOf
  simp only [List.headD_eq_head?_getD] at hsplit
  simp [hsplit]

/-- The dedup key of any element of an indexed kid's block. -/
theorem keyDisplayOf_idx (ds t : List Char) (hds : ds ≠ [])
    (hdig : ds.all Char.isDigit = true) :
    keyDisplayOf ('[' :: (ds ++ ([']'] ++ t))) =
      some ('[' :: (ds ++ [']']), '[' :: (ds ++ [']'])) := by
  unfold keyDisplayOf
  rw [parseIdx_run ds hds hdig t]
  simp

/-- The spec-side one-segment key of a member kid's entry. -/
theorem oneSegKey_dot (k : List Char) (hkne : k ≠ [])
    (hk : k.all goodChar = true) : oneSegKey ('.' :: k) = some k := by
  unfold oneSegKey
  simp [hkne, hk]

/-- The spec-side one-segment key of an indexed kid's entry. -/
theorem oneSegKey_idx (ds : List Char) (hds : ds ≠ [])
    (hdig : ds.all Char.isDigit = true) :
    oneSegKey ('[' :: (ds ++ [']'])) = some ('[' :: (ds ++ [']'])) := by
  unfold oneSegKey
  have hsp : (ds ++ [']']).span Char.isDigit = (ds, [']']) := by
    have := span_run Char.isDigit ds hdig [']'] (Or.inr ⟨']', [], rfl, by decide⟩)
    simpa using this
  have h2 := hsp
  rw [List.span_eq_take_drop] at h2
  injection h2 with htw hdw
  simp [htw, hdw, hds]

/-- The spec filter on a member kid's block: true exactly on the kid's own
entry when the key prefix-matches. -/
theorem specDotMatch_block_dot (pre : String) (pk k t : List Char)
    (s : AutocompleteSuggestion)
    (hpath : s.path.data = pre.data ++ ('.' :: (k ++ t)))
    (hkne : k ≠ []) (hk : k.all goodChar = true) (hts : tailShaped t) :
    specDotMatch pre.data pk s =
      (t.isEmpty &&
        lcStartsWith (pk.map Char.toLower) (k.map Char.toLower)) := by
  unfold specDotMatch
  rw [hpath]
  dsimp only
  rw [lcStartsWith_self_append, List.drop_left]
  have hlen : decide (pre.data.length <
      (pre.data ++ ('.' :: (k ++ t))).length) = true :=
    decide_eq_true (by simp [List.length_append])
  rw [hlen]
  rcases tailShaped_sepchar t hts with rfl | ⟨c, t2, rfl, hc⟩
  · simp [hkne, hk]
  · have hbad : (k ++ c :: t2).all goodChar = false :=
      all_goodChar_append_tail k (c :: t2) (by
        rcases Bool.or_eq_true_iff.mp hc with h1 | h1
        · exact Or.inr (Or.inl (by rw [beq_iff_eq.mp h1]; rfl))
        · exact Or.inr (Or.inr (by rw [beq_iff_eq.mp h1]; rfl))) (by simp)
    simp [hbad]

/-- The spec filter on an indexed kid's block: true exactly on the kid's own
entry when the partial key is empty. -/
theorem specDotMatch_block_idx (pre : String) (pk ds t : List Char)
    (s : AutocompleteSuggestion)
    (hpath : s.path.data = pre.data ++ ('[' :: (ds ++ ([']'] ++ t))))
    (hds : ds ≠ []) (hdig : ds.all Char.isDigit = true)
    (hpk : pkOk pk = true) :
    specDotMatch pre.data pk s = (t.isEmpty && pk.isEmpty) := by
  unfold specDotMatch
  rw [hpath]
  dsimp only
  rw [lcStartsWith_self_append, List.drop_left]
  have hlen : decide (pre.data.length <
      (pre.data ++ ('[' :: (ds ++ ([']'] ++ t)))).length) = true :=
    decide_eq_true (by simp [List.length_append])
  rw [hlen]
  have hsp : (ds ++ ([']'] ++ t)).span Char.isDigit = (ds, ']' :: t) := by
    have := span_run Char.isDigit ds hdig (']' :: t)
      (Or.inr ⟨']', t, by simp, by decide⟩)
    simpa using this
  have hie : ds.isEmpty = false := by
    cases ds with
    | nil => exact absurd rfl hds
    | cons d ds2 => rfl
  have h2 := hsp
  rw [List.span_eq_take_drop] at h2
  injection h2 with htw hdw
  cases t with
  | nil =>
      simp only [List.append_nil] at htw hdw
      cases pk with
      | nil => simp [htw, hdw, hie]
      | cons c pk2 =>
          rw [pkOk] at hpk
          simp only [List.isEmpty_cons, Bool.false_or, List.headD_cons] at hpk
          have hc : c.isDigit = false := by simpa using hpk
          simp [htw, hdw, hie, lcStartsWith_nondigit c pk2 ds hdig hc]
  | cons c2 t2 =>
      simp only [List.singleton_append] at htw hdw
      simp [htw, hdw]

end Autocomplete

namespace Autocomplete

/-- Filtering by a predicate that is constant on the list. -/
theorem filter_const {α : Type} (p : α → Bool) (l : List α) (c : Bool)
    (h : ∀ s ∈ l, p s = c) : l.filter p = if c then l else [] := by
  induction l with
  | nil => cases c <;> simp
  | cons a l ih =>
      rw [List.filter_cons, h a (List.mem_cons_self a l),
        ih (fun s hs => h s (List.mem_cons_of_mem a hs))]
      cases c <;> simp

/-- Flat-mapping a guarded function equals flat-mapping over the filter. -/
theorem flatMap_guard {α β : Type} (q : α → Bool) (f : α → List β)
    (l : List α) :
    (l.flatMap fun x => if q x then f x else []) = (l.filter q).flatMap f := by
  induction l with
  | nil => rfl
  | cons a l ih =>
      rw [List.flatMap_cons, List.filter_cons, ih]
      cases hq : q a <;> simp

/-- The data of a kid entry's path. -/
theorem kidEntry_path_data (pre : String) (kid : Kid) :
    (kidEntry pre kid).path.data = pre.data ++ kid.sep := by
  show (pre ++ String.mk kid.sep).data = pre.data ++ kid.sep
  rw [String.data_append]

/-- Decomposition of any block element's path. -/
theorem blockOf_path (pre : String) (kid : Kid) (s : AutocompleteSuggestion)
    (hs : s ∈ blockOf pre kid) :
    ∃ t, s.path.data = pre.data ++ (kid.sep ++ t) ∧ tailShaped t := by
  rw [blockOf] at hs
  rcases List.mem_cons.mp hs with rfl | hsub
  · exact ⟨[], by rw [kidEntry_path_data, List.append_nil], Or.inl rfl⟩
  · cases hq : kid.sub with
    | none => rw [hq] at hsub; cases hsub
    | some w =>
        rw [hq] at hsub
        obtain ⟨t, ht, hh⟩ := getAllPaths_shape_mem w (pre ++ String.mk kid.sep) s hsub
        rw [String.data_append] at ht
        exact ⟨t, by rw [ht, List.append_assoc], Or.inr hh⟩

/-- The source dot filter is the kid-match verdict on every block element. -/
theorem dotFilter_blockOf (pre : String) (pk : List Char) (kid : Kid)
    (hat : atomicSep kid.sep) (hpk : pkOk pk = true)
    (s : AutocompleteSuggestion) (hs : s ∈ blockOf pre kid) :
    dotFilter pre.data pk s = kidMatch pk kid := by
  obtain ⟨t, hpath, hts⟩ := blockOf_path pre kid s hs
  rcases hat with ⟨k, hsep, hkne, hk⟩ | ⟨ds, hsep, hds, hdig⟩
  · rw [hsep] at hpath
    rw [dotFilter_block_dot pre pk k t s (by rw [hpath]; rfl) hk hts]
    simp [kidMatch, hsep]
  · rw [hsep] at hpath
    rw [dotFilter_block_idx pre pk ds t s
      (by rw [hpath]; simp [List.append_assoc]) hds hdig hpk]
    simp [kidMatch, hsep]

/-- The spec filter keeps exactly the kid's entry, when the kid matches. -/
theorem specDotMatch_blockOf (pre : String) (pk : List Char) (kid : Kid)
    (hat : atomicSep kid.sep) (hpk : pkOk pk = true) :
    (blockOf pre kid).filter (specDotMatch pre.data pk) =
      if kidMatch pk kid then [kidEntry pre kid] else [] := by
  rw [blockOf, List.filter_cons]
  have hentry : specDotMatch pre.data pk (kidEntry pre kid) = kidMatch pk kid := by
    rcases hat with ⟨k, hsep, hkne, hk⟩ | ⟨ds, hsep, hds, hdig⟩
    · rw [specDotMatch_block_dot pre pk k [] (kidEntry pre kid)
        (by rw [kidEntry_path_data, hsep, List.append_nil]) hkne hk (Or.inl rfl)]
      simp [kidMatch, hsep]
    · rw [specDotMatch_block_idx pre pk ds [] (kidEntry pre kid)
        (by rw [kidEntry_path_data, hsep]; simp) hds hdig hpk]
      simp [kidMatch, hsep]
  have htail : (match kid.sub with
      | some w => getAllPaths w (pre ++ String.mk kid.sep)
      | none => []).filter (specDotMatch pre.data pk) = [] := by
    rw [List.filter_eq_nil_iff]
    intro s hsub
    cases hq : kid.sub with
    | none => rw [hq] at hsub; cases hsub
    | some w =>
        rw [hq] at hsub
        obtain ⟨t, ht, hh⟩ := getAllPaths_shape_mem w (pre ++ String.mk kid.sep) s hsub
        rw [String.data_append] at ht
        have htne : t ≠ [] := by
          intro hte
          rw [hte] at hh
          rcases hh with hh | hh <;> exact Option.noConfusion hh
        rcases hat with ⟨k, hsep, hkne, hk⟩ | ⟨ds, hsep, hds, hdig⟩
        · rw [specDotMatch_block_dot pre pk k t s
            (by rw [ht, hsep, List.append_assoc]; rfl) hkne hk (Or.inr hh)]
          intro hcon
          rw [Bool.and_eq_true] at hcon
          rcases hcon with ⟨h1, _⟩
          cases t with
          | nil => exact htne rfl
          | cons a b => exact Bool.noConfusion h1
        · rw [specDotMatch_block_idx pre pk ds t s
            (by rw [ht, hsep]; simp [List.append_assoc]) hds hdig hpk]
          intro hcon
          rw [Bool.and_eq_true] at hcon
          rcases hcon with ⟨h1, _⟩
          cases t with
          | nil => exact htne rfl
          | cons a b => exact Bool.noConfusion h1
  rw [hentry, htail]

end Autocomplete

namespace Autocomplete

/-- Key membership via the fold's `any` test. -/
theorem any_fst_beq {β : Type} (acc : List (List Char × β)) (key : List Char) :
    (acc.any (fun e => e.1 == key)) = true ↔ key ∈ acc.map Prod.fst := by
  rw [List.any_eq_true]
  constructor
  · rintro ⟨e, he, hbe⟩
    exact (beq_iff_eq.mp hbe) ▸ List.mem_map_of_mem Prod.fst he
  · intro hm
    obtain ⟨e, he, heq⟩ := List.mem_map.mp hm
    exact ⟨e, he, beq_iff_eq.mpr heq⟩

/-- The dedup key of every block element (uniform over the block). -/
theorem keyDisplayOf_blockOf (pre : String) (kid : Kid)
    (hat : atomicSep kid.sep) (s : AutocompleteSuggestion)
    (hs : s ∈ blockOf pre kid) :
    keyDisplayOf (s.path.data.drop pre.data.length) =
      some (kidKey kid, kidKey kid) := by
  obtain ⟨t, hpath, hts⟩ := blockOf_path pre kid s hs
  rw [hpath, List.drop_left]
  rcases hat with ⟨k, hsep, hkne, hk⟩ | ⟨ds, hsep, hds, hdig⟩
  · rw [hsep]
    rw [show ('.' :: k) ++ t = '.' :: (k ++ t) from rfl]
    rw [keyDisplayOf_dot k t hk hts]
    simp [kidKey, hsep]
  · rw [hsep]
    rw [show ('[' :: (ds ++ [']'])) ++ t = '[' :: (ds ++ ([']'] ++ t)) by simp]
    rw [keyDisplayOf_idx ds t hds hdig]
    simp [kidKey, hsep]

/-- The spec-side one-segment key of a kid's entry. -/
theorem oneSegKey_kidEntry (pre : String) (kid : Kid)
    (hat : atomicSep kid.sep) :
    oneSegKey ((kidEntry pre kid).path.data.drop pre.data.length) =
      some (kidKey kid) := by
  rw [kidEntry_path_data, List.drop_left]
  rcases hat with ⟨k, hsep, hkne, hk⟩ | ⟨ds, hsep, hds, hdig⟩
  · rw [hsep, oneSegKey_dot k hkne hk]
    simp [kidKey, hsep]
  · rw [hsep, oneSegKey_idx ds hds hdig]
    simp [kidKey, hsep]

/-- The dedup's rewritten first entry is the kid's own entry. -/
theorem rewrittenEntry_eq (pre : String) (kid : Kid) (hat : atomicSep kid.sep)
    (hdisp : kid.disp = String.mk (kidKey kid)) :
    ({ kidEntry pre kid with
      path := String.mk (pre.data ++
        (if (kid.sep.head? == some '[') then kidKey kid
         else '.' :: kidKey kid)),
      displayPath := String.mk (kidKey kid) } : AutocompleteSuggestion) =
      kidEntry pre kid := by
  have hcond : (if (kid.sep.head? == some '[') then kidKey kid
      else '.' :: kidKey kid) = kid.sep := by
    rcases hat with ⟨k, hsep, _, _⟩ | ⟨ds, hsep, _, _⟩
    · rw [hsep]
      simp [kidKey, hsep]
    · rw [hsep]
      simp [kidKey, hsep]
  rw [hcond]
  have hmk : String.mk (pre.data ++ kid.sep) = pre ++ String.mk kid.sep :=
    strExt (by rw [String.data_append])
  rw [hmk, ← hdisp]
  rfl

/-- Elements whose key is already taken leave the dedup accumulator
unchanged. -/
theorem foldl_dotStep_skip (pre : String) (κ : List Char)
    (l : List AutocompleteSuggestion)
    (hl : ∀ s ∈ l, keyDisplayOf (s.path.data.drop pre.data.length) =
      some (κ, κ)) :
    ∀ acc, κ ∈ acc.map Prod.fst →
      List.foldl (dotDedupStep pre.data) acc l = acc := by
  induction l with
  | nil => intro acc _; rfl
  | cons s l ih =>
      intro acc hmem
      rw [List.foldl_cons]
      have hstep : dotDedupStep pre.data acc s = acc := by
        unfold dotDedupStep
        dsimp only
        rw [hl s (List.mem_cons_self s l)]
        dsimp only
        rw [if_pos ((any_fst_beq acc κ).mpr hmem)]
      rw [hstep]
      exact ih (fun s2 hs2 => hl s2 (List.mem_cons_of_mem s hs2)) acc hmem

/-- The dedup fold over one kid's whole block adds exactly the kid's entry
under its key. -/
theorem foldl_dotStep_block (pre : String) (kid : Kid)
    (hat : atomicSep kid.sep) (hdisp : kid.disp = String.mk (kidKey kid))
    (acc : List (List Char × AutocompleteSuggestion))
    (hfresh : kidKey kid ∉ acc.map Prod.fst) :
    List.foldl (dotDedupStep pre.data) acc (blockOf pre kid) =
      acc ++ [(kidKey kid, kidEntry pre kid)] := by
  rw [blockOf, List.foldl_cons]
  have hstep : dotDedupStep pre.data acc (kidEntry pre kid) =
      acc ++ [(kidKey kid, kidEntry pre kid)] := by
    unfold dotDedupStep
    dsimp only
    rw [keyDisplayOf_blockOf pre kid hat (kidEntry pre kid)
      (by rw [blockOf]; exact List.mem_cons_self _ _)]
    dsimp only
    rw [if_neg (fun hc => hfresh ((any_fst_beq acc (kidKey kid)).mp hc))]
    rw [kidEntry_path_data, List.drop_left]
    rw [rewrittenEntry_eq pre kid hat hdisp]
  rw [hstep]
  apply foldl_dotStep_skip pre (kidKey kid)
  · intro s2 hs2
    refine keyDisplayOf_blockOf pre kid hat s2 ?_
    rw [blockOf]
    exact List.mem_cons_of_mem _ hs2
  · rw [List.map_append]
    exact List.mem_append_right _ (List.mem_singleton.mpr rfl)

end Autocomplete

namespace Autocomplete

/-- The dedup fold over the blocks of distinct-keyed kids lists exactly their
entries. -/
theorem foldl_dotStep_kids (pre : String) (kids : List Kid) :
    ∀ acc, (∀ kid ∈ kids, atomicSep kid.sep ∧
        kid.disp = String.mk (kidKey kid)) →
      kids.Pairwise (fun a b => kidKey a ≠ kidKey b) →
      (∀ kid ∈ kids, kidKey kid ∉ acc.map Prod.fst) →
      List.foldl (dotDedupStep pre.data) acc (kids.flatMap (blockOf pre)) =
        acc ++ kids.map (fun kid => (kidKey kid, kidEntry pre kid)) := by
  induction kids with
  | nil => intro acc _ _ _; simp
  | cons kid kids ih =>
      intro acc hyps hpw hfresh
      rw [List.flatMap_cons, List.foldl_append]
      rw [foldl_dotStep_block pre kid (hyps kid (List.mem_cons_self _ _)).1
        (hyps kid (List.mem_cons_self _ _)).2 acc
        (hfresh kid (List.mem_cons_self _ _))]
      rw [ih (acc ++ [(kidKey kid, kidEntry pre kid)])
        (fun k2 h2 => hyps k2 (List.mem_cons_of_mem _ h2))
        (List.Pairwise.sublist (List.sublist_cons_self kid kids) hpw)
        ?_]
      · simp
      · intro k2 h2
        rw [List.map_append]
        intro hmem
        rcases List.mem_append.mp hmem with hm | hm
        · exact hfresh k2 (List.mem_cons_of_mem _ h2) hm
        · have hne := (List.pairwise_cons.mp hpw).1 k2 h2
          simp only [List.map_cons, List.map_nil, List.mem_singleton] at hm
          exact hne hm.symm

/-- The spec dedup fold over distinct-keyed entries keeps them all. -/
theorem foldl_specStep_kids (pre : String) (kids : List Kid) :
    ∀ acc, (∀ kid ∈ kids, atomicSep kid.sep) →
      kids.Pairwise (fun a b => kidKey a ≠ kidKey b) →
      (∀ kid ∈ kids, kidKey kid ∉ acc.map Prod.fst) →
      List.foldl (dedupByKeyStep pre.data) acc (kids.map (kidEntry pre)) =
        acc ++ kids.map (fun kid => (kidKey kid, kidEntry pre kid)) := by
  induction kids with
  | nil => intro acc _ _ _; simp
  | cons kid kids ih =>
      intro acc hyps hpw hfresh
      rw [List.map_cons, List.foldl_cons]
      have hstep : dedupByKeyStep pre.data acc (kidEntry pre kid) =
          acc ++ [(kidKey kid, kidEntry pre kid)] := by
        unfold dedupByKeyStep
        rw [oneSegKey_kidEntry pre kid (hyps kid (List.mem_cons_self _ _))]
        dsimp only
        rw [if_neg (fun hc => (hfresh kid (List.mem_cons_self _ _))
          ((any_fst_beq acc (kidKey kid)).mp hc))]
      rw [hstep]
      rw [ih (acc ++ [(kidKey kid, kidEntry pre kid)])
        (fun k2 h2 => hyps k2 (List.mem_cons_of_mem _ h2))
        (List.Pairwise.sublist (List.sublist_cons_self kid kids) hpw)
        ?_]
      · simp
      · intro k2 h2
        rw [List.map_append]
        intro hmem
        rcases List.mem_append.mp hmem with hm | hm
        · exact hfresh k2 (List.mem_cons_of_mem _ h2) hm
        · have hne := (List.pairwise_cons.mp hpw).1 k2 h2
          simp only [List.map_cons, List.map_nil, List.mem_singleton] at hm
          exact hne hm.symm

/-- Filtering distributes over flat maps. -/
theorem filter_flatMap {α β : Type} (f : α → List β) (l : List α)
    (p : β → Bool) :
    (l.flatMap f).filter p = l.flatMap (fun x => (f x).filter p) := by
  induction l with
  | nil => rfl
  | cons a l ih => simp [List.flatMap_cons, List.filter_append, ih]

/-- Congruence for flat maps. -/
theorem flatMap_congr {α β : Type} (f g : α → List β) (l : List α)
    (h : ∀ x ∈ l, f x = g x) : l.flatMap f = l.flatMap g := by
  induction l with
  | nil => rfl
  | cons a l ih =>
      rw [List.flatMap_cons, List.flatMap_cons, h a (List.mem_cons_self a l),
        ih (fun x hx => h x (List.mem_cons_of_mem a hx))]

/-- Flat map of singletons is a map. -/
theorem flatMap_singleton_fn {α β : Type} (f : α → β) (l : List α) :
    (l.flatMap fun x => [f x]) = l.map f := by
  induction l with
  | nil => rfl
  | cons a l ih => simp [List.flatMap_cons, ih]

/-- Scenario of a base path equal to the walk prefix: both the source
pipeline and the spec pipeline produce exactly the entries of the matching
kids. -/
theorem scenarioA (v : JVal) (pre : String) (pk : List Char)
    (hv : goodDoc v = true) (hpk : pkOk pk = true) :
    dotDedup pre.data ((getAllPaths v pre).filter (dotFilter pre.data pk)) =
      ((kidsOf v).filter (kidMatch pk)).map (kidEntry pre) ∧
    specDotCands pre.data pk (getAllPaths v pre) =
      ((kidsOf v).filter (kidMatch pk)).map (kidEntry pre) := by
  have hkidhyps : ∀ kid ∈ (kidsOf v).filter (kidMatch pk),
      atomicSep kid.sep ∧ kid.disp = String.mk (kidKey kid) := by
    intro kid hkid
    have hm := (List.mem_filter.mp hkid).1
    exact ⟨kid_atomic v kid hv hm, kid_disp v kid hm⟩
  have hpw : ((kidsOf v).filter (kidMatch pk)).Pairwise
      (fun a b => kidKey a ≠ kidKey b) :=
    List.Pairwise.sublist (List.filter_sublist _) (kid_keys_nodup v hv)
  constructor
  · rw [getAllPaths_eq, filter_flatMap]
    have hblocks : (kidsOf v).flatMap
        (fun kid => (blockOf pre kid).filter (dotFilter pre.data pk)) =
        ((kidsOf v).filter (kidMatch pk)).flatMap (blockOf pre) := by
      rw [← flatMap_guard]
      apply flatMap_congr
      intro kid hkid
      exact filter_const (dotFilter pre.data pk) (blockOf pre kid)
        (kidMatch pk kid)
        (fun s hs => dotFilter_blockOf pre pk kid (kid_atomic v kid hv hkid)
          hpk s hs)
    rw [hblocks]
    unfold dotDedup
    rw [foldl_dotStep_kids pre ((kidsOf v).filter (kidMatch pk)) [] hkidhyps
      hpw (by intro kid _; simp)]
    simp
  · unfold specDotCands
    rw [getAllPaths_eq, filter_flatMap]
    have hblocks : (kidsOf v).flatMap
        (fun kid => (blockOf pre kid).filter (specDotMatch pre.data pk)) =
        ((kidsOf v).filter (kidMatch pk)).map (kidEntry pre) := by
      rw [← flatMap_singleton_fn (kidEntry pre), ← flatMap_guard]
      apply flatMap_congr
      intro kid hkid
      exact specDotMatch_blockOf pre pk kid (kid_atomic v kid hv hkid) hpk
    rw [hblocks]
    unfold dedupByKey
    rw [foldl_specStep_kids pre ((kidsOf v).filter (kidMatch pk)) []
      (fun kid hkid => (hkidhyps kid hkid).1) hpw (by intro kid _; simp)]
    simp

end Autocomplete

namespace Autocomplete

/-- A good character differs from any separator character. -/
theorem goodChar_ne_sepchar (c d : Char) (hc : goodChar c = true)
    (hd : (d == '.' || d == '[') = true) : (c == d) = false := by
  cases hq : c == d with
  | false => rfl
  | true =>
      exfalso
      rw [← beq_iff_eq.mp hq] at hd
      rw [goodChar_not_sep c hc] at hd
      exact Bool.noConfusion hd

/-- A separator character differs from any good character. -/
theorem sepchar_ne_goodChar (c d : Char) (hc : (c == '.' || c == '[') = true)
    (hd : goodChar d = true) : (c == d) = false := by
  cases hq : c == d with
  | false => rfl
  | true =>
      exfalso
      rw [beq_iff_eq.mp hq] at hc
      rw [goodChar_not_sep d hd] at hc
      exact Bool.noConfusion hc

/-- Rejection core for two distinct member keys: wherever the base-path tail
`k ++ m` is a prefix of a block path tail `j ++ t`, the remainder starts with
a good (non-separator) character. -/
theorem dotdot_rej (m t : List Char)
    (hm : tailShaped m) (ht : tailShaped t) :
    ∀ k j : List Char, k.all goodChar = true → j.all goodChar = true →
      k ≠ j → lcStartsWith (k ++ m) (j ++ t) = true →
      ∀ hd, ((j ++ t).drop (k ++ m).length).head? = some hd →
        goodChar hd = true := by
  intro k
  induction k with
  | nil =>
      intro j _ hj hne hpre hd hhd
      cases j with
      | nil => exact absurd rfl hne
      | cons cj j2 =>
          rw [List.all_cons, Bool.and_eq_true] at hj
          rcases tailShaped_sepchar m hm with rfl | ⟨cm, m2, rfl, hcm⟩
          · simp only [List.nil_append, List.length_nil, List.drop_zero] at hhd
            rw [List.cons_append, List.head?_cons] at hhd
            injection hhd with hhd2
            rw [← hhd2]
            exact hj.1
          · exfalso
            rw [List.nil_append, List.cons_append, lcStartsWith,
              sepchar_ne_goodChar cm cj hcm hj.1] at hpre
            exact Bool.noConfusion hpre
  | cons ck k2 ihk =>
      intro j hk hj hne hpre hd hhd
      rw [List.all_cons, Bool.and_eq_true] at hk
      cases j with
      | nil =>
          exfalso
          rcases tailShaped_sepchar t ht with rfl | ⟨c, t2, rfl, hc⟩
          · rw [List.nil_append, List.cons_append, lcStartsWith] at hpre
            exact Bool.noConfusion hpre
          · rw [List.nil_append, List.cons_append, lcStartsWith,
              goodChar_ne_sepchar ck c hk.1 hc] at hpre
            exact Bool.noConfusion hpre
      | cons cj j2 =>
          rw [List.all_cons, Bool.and_eq_true] at hj
          rw [List.cons_append, List.cons_append, lcStartsWith,
            Bool.and_eq_true] at hpre
          obtain ⟨hpre1, hpre2⟩ := hpre
          have hckj : ck = cj := beq_iff_eq.mp hpre1
          have hne2 : k2 ≠ j2 := by
            intro heq
            exact hne (by rw [heq, hckj])
          have hhd2 : ((j2 ++ t).drop (k2 ++ m).length).head? = some hd := by
            rw [List.cons_append, List.cons_append, List.length_cons,
              List.drop_succ_cons] at hhd
            exact hhd
          exact ihk j2 hk.2 hj.2 hne2 hpre2 hd hhd2

end Autocomplete

namespace Autocomplete

/-- Two distinct bracketed digit runs are prefix-incompatible. -/
theorem idxidx_rej (m t : List Char) :
    ∀ ds ds2 : List Char, ds.all Char.isDigit = true →
      ds2.all Char.isDigit = true → ds ≠ ds2 →
      lcStartsWith ((ds ++ [']']) ++ m) ((ds2 ++ [']']) ++ t) = false := by
  intro ds
  induction ds with
  | nil =>
      intro ds2 _ hd2 hne
      cases ds2 with
      | nil => exact absurd rfl hne
      | cons d2 r2 =>
          rw [List.all_cons, Bool.and_eq_true] at hd2
          have hne2 : ((']' : Char) == d2) = false := by
            cases hq : (']' : Char) == d2 with
            | false => rfl
            | true =>
                rw [← beq_iff_eq.mp hq] at hd2
                exact absurd hd2.1 (by decide)
          rw [List.nil_append, List.singleton_append, List.cons_append,
            List.cons_append, lcStartsWith, hne2]
          rfl
  | cons d r ih =>
      intro ds2 hd1 hd2 hne
      rw [List.all_cons, Bool.and_eq_true] at hd1
      cases ds2 with
      | nil =>
          have hne2 : (d == ']') = false := by
            cases hq : d == ']' with
            | false => rfl
            | true =>
                rw [beq_iff_eq.mp hq] at hd1
                exact absurd hd1.1 (by decide)
          rw [List.cons_append, List.cons_append, List.nil_append,
            List.singleton_append, lcStartsWith, hne2]
          rfl
      | cons d2 r2 =>
          rw [List.all_cons, Bool.and_eq_true] at hd2
          by_cases hdd : d = d2
          · subst hdd
            have hne2 : r ≠ r2 := by
              intro heq
              exact hne (by rw [heq])
            rw [List.cons_append, List.cons_append, List.cons_append,
              List.cons_append, lcStartsWith, ih r2 hd1.2 hd2.2 hne2]
            simp
          · rw [List.cons_append, List.cons_append, List.cons_append,
              List.cons_append, lcStartsWith,
              beq_eq_false_iff_ne.mpr hdd]
            rfl

/-- Rejection core: a block of a kid whose separator differs from the next
base-path segment contributes nothing, for either filter.  Where the base
path is a prefix of the element's path at all, the remainder starts with a
non-separator character. -/
theorem sep_mismatch_core (a b m t : List Char)
    (hata : atomicSep a) (hatb : atomicSep b) (hne : a ≠ b)
    (hm : tailShaped m) (ht : tailShaped t)
    (hpre : lcStartsWith (a ++ m) (b ++ t) = true) :
    ∀ hd, ((b ++ t).drop (a ++ m).length).head? = some hd →
      (hd == '.') = false ∧ (hd == '[') = false := by
  intro hd hhd
  rcases hata with ⟨k, rfl, hkne, hk⟩ | ⟨ds, rfl, hds, hdig⟩ <;>
    rcases hatb with ⟨j, rfl, hjne, hj⟩ | ⟨ds2, rfl, hds2, hdig2⟩
  · -- dot vs dot
    have hne2 : k ≠ j := by
      intro heq
      exact hne (by rw [heq])
    rw [List.cons_append, List.cons_append, lcStartsWith,
      Bool.and_eq_true] at hpre
    have hgood := dotdot_rej m t hm ht k j hk hj hne2 hpre.2 hd (by
      rw [List.cons_append, List.cons_append, List.length_cons,
        List.drop_succ_cons] at hhd
      exact hhd)
    exact ⟨by
        have := goodChar_not_sep hd hgood
        rcases Bool.or_eq_false_iff.mp this with ⟨h1, h2⟩
        exact h1,
      by
        have := goodChar_not_sep hd hgood
        rcases Bool.or_eq_false_iff.mp this with ⟨h1, h2⟩
        exact h2⟩
  · -- dot vs idx: heads differ
    exfalso
    rw [List.cons_append, List.cons_append, lcStartsWith] at hpre
    simp at hpre
  · -- idx vs dot: heads differ
    exfalso
    rw [List.cons_append, List.cons_append, lcStartsWith] at hpre
    simp at hpre
  · -- idx vs idx
    exfalso
    have hne2 : ds ≠ ds2 := by
      intro heq
      exact hne (by rw [heq])
    rw [List.cons_append, List.cons_append, lcStartsWith,
      Bool.and_eq_true] at hpre
    obtain ⟨_, hpre2⟩ := hpre
    rw [idxidx_rej m t ds ds2 hdig hdig2 hne2] at hpre2
    exact Bool.noConfusion hpre2

end Autocomplete

namespace Autocomplete

/-- Drop of a common prefix plus an inner length. -/
theorem drop_pre_append (x y z : List Char) :
    (x ++ y).drop (x ++ z).length = y.drop z.length := by
  rw [List.length_append]
  exact List.drop_append z.length

/-- The source dot filter rejects every element of a kid whose separator
differs from the next base-path segment. -/
theorem dotFilter_mismatch (pre : String) (a m pk : List Char) (kid : Kid)
    (hata : atomicSep a) (hatb : atomicSep kid.sep) (hne : a ≠ kid.sep)
    (hm : tailShaped m) (s : AutocompleteSuggestion)
    (hs : s ∈ blockOf pre kid) :
    dotFilter (pre.data ++ (a ++ m)) pk s = false := by
  obtain ⟨t, hpath, hts⟩ := blockOf_path pre kid s hs
  unfold dotFilter
  rw [hpath]
  dsimp only
  rw [lcStartsWith_append]
  by_cases hq : lcStartsWith (a ++ m) (kid.sep ++ t) = true
  · rw [hq, drop_pre_append]
    have hdr : ((kid.sep ++ t).drop (a ++ m).length).head? = none ∨
        ∃ hd, ((kid.sep ++ t).drop (a ++ m).length).head? = some hd := by
      cases ((kid.sep ++ t).drop (a ++ m).length).head? with
      | none => exact Or.inl rfl
      | some hd => exact Or.inr ⟨hd, rfl⟩
    rcases hdr with hdr | ⟨hd, hdr⟩
    · rw [hdr]
      rfl
    · obtain ⟨h1, h2⟩ := sep_mismatch_core a kid.sep m t hata hatb hne hm hts
        hq hd hdr
      rw [hdr]
      simp [h1, h2]
  · rw [Bool.not_eq_true] at hq
    rw [hq]
    rfl

/-- The spec filter rejects every element of a kid whose separator differs
from the next base-path segment. -/
theorem specDotMatch_mismatch (pre : String) (a m pk : List Char) (kid : Kid)
    (hata : atomicSep a) (hatb : atomicSep kid.sep) (hne : a ≠ kid.sep)
    (hm : tailShaped m) (s : AutocompleteSuggestion)
    (hs : s ∈ blockOf pre kid) :
    specDotMatch (pre.data ++ (a ++ m)) pk s = false := by
  obtain ⟨t, hpath, hts⟩ := blockOf_path pre kid s hs
  unfold specDotMatch
  rw [hpath]
  dsimp only
  rw [lcStartsWith_append]
  by_cases hq : lcStartsWith (a ++ m) (kid.sep ++ t) = true
  · rw [hq, drop_pre_append]
    cases hdr : (kid.sep ++ t).drop (a ++ m).length with
    | nil => simp
    | cons hd rest2 =>
        obtain ⟨h1, h2⟩ := sep_mismatch_core a kid.sep m t hata hatb hne hm hts
          hq hd (by rw [hdr]; rfl)
        have hd1 : hd ≠ '.' := fun hcon => by
          rw [hcon] at h1
          simp at h1
        have hd2 : hd ≠ '[' := fun hcon => by
          rw [hcon] at h2
          simp at h2
        split
        · rename_i seg heqm
          exfalso
          injection heqm with heq1 _
          exact hd1 heq1
        · rename_i rest3 heqm
          exfalso
          injection heqm with heq1 _
          exact hd2 heq1
        · simp
  · rw [Bool.not_eq_true] at hq
    rw [hq]
    rfl

/-- Both filters reject the entry of the kid the base path descends into. -/
theorem entry_selfbase_rej (pre : String) (a m pk : List Char) (kid : Kid)
    (hsep : kid.sep = a) :
    dotFilter (pre.data ++ (a ++ m)) pk (kidEntry pre kid) = false ∧
    specDotMatch (pre.data ++ (a ++ m)) pk (kidEntry pre kid) = false := by
  have hpath : (kidEntry pre kid).path.data = pre.data ++ a := by
    rw [kidEntry_path_data, hsep]
  cases m with
  | nil =>
      have hself : lcStartsWith (pre.data ++ a) (pre.data ++ a) = true :=
        (lcStartsWith_iff _ _).mpr ⟨[], by simp⟩
      constructor
      · unfold dotFilter
        rw [hpath]
        dsimp only
        rw [List.append_nil, hself, List.drop_length]
        rfl
      · unfold specDotMatch
        rw [hpath]
        dsimp only
        rw [List.append_nil]
        simp
  | cons c m2 =>
      have hpre : lcStartsWith (pre.data ++ (a ++ c :: m2))
          (pre.data ++ a) = false := by
        cases hq : lcStartsWith (pre.data ++ (a ++ c :: m2))
            (pre.data ++ a) with
        | false => rfl
        | true =>
            exfalso
            have hle := lcStartsWith_length_le _ _ hq
            simp [List.length_append] at hle
      constructor
      · unfold dotFilter
        rw [hpath]
        dsimp only
        rw [hpre]
        rfl
      · unfold specDotMatch
        rw [hpath]
        dsimp only
        rw [hpre]
        rfl

end Autocomplete

namespace Autocomplete

/-- Kid separators of a good node are pairwise distinct. -/
theorem kid_seps_nodup (v : JVal) (hv : goodDoc v = true) :
    (kidsOf v).Pairwise (fun x y => x.sep ≠ y.sep) := by
  refine (kid_keys_nodup v hv).imp ?_
  intro a b hne heq
  apply hne
  unfold kidKey
  rw [heq]

/-- A good segment renders atomically. -/
theorem renderSeg_atomic (seg : PSeg) (h : segGood seg = true) :
    atomicSep (renderSeg seg) := by
  cases seg with
  | key k =>
      rw [segGood, goodKeyB, Bool.and_eq_true] at h
      refine Or.inl ⟨k.data, rfl, ?_, h.2⟩
      intro hnil
      rw [hnil] at h
      exact absurd h.1 (by decide)
  | idx ds =>
      rw [segGood, Bool.and_eq_true] at h
      refine Or.inr ⟨ds.data, rfl, ?_, h.2⟩
      intro hnil
      rw [hnil] at h
      exact absurd h.1 (by decide)

/-- A rendered segment list is empty or starts with a separator. -/
theorem renderSegs_shaped (segs : List PSeg) : tailShaped (renderSegs segs) := by
  cases segs with
  | nil => exact Or.inl rfl
  | cons seg rest =>
      cases seg with
      | key k => exact Or.inr (Or.inl rfl)
      | idx ds => exact Or.inr (Or.inr rfl)

/-- The block the base path descends into filters to its subtree (the entry
itself is rejected), for the source filter. -/
theorem blockOf_selfbase_dot (pre : String) (a m pk : List Char) (kid : Kid)
    (hsep : kid.sep = a) :
    (blockOf pre kid).filter (dotFilter (pre.data ++ (a ++ m)) pk) =
      (match kid.sub with
       | some w => (getAllPaths w (pre ++ String.mk a)).filter
           (dotFilter (pre.data ++ (a ++ m)) pk)
       | none => []) := by
  cases hsub : kid.sub with
  | none =>
      rw [blockOf, hsub, List.filter_cons,
        (entry_selfbase_rej pre a m pk kid hsep).1]
      rfl
  | some w =>
      rw [blockOf, hsub, List.filter_cons,
        (entry_selfbase_rej pre a m pk kid hsep).1, hsep,
        if_neg Bool.false_ne_true]

/-- The block the base path descends into filters to its subtree, for the
spec filter. -/
theorem blockOf_selfbase_spec (pre : String) (a m pk : List Char) (kid : Kid)
    (hsep : kid.sep = a) :
    (blockOf pre kid).filter (specDotMatch (pre.data ++ (a ++ m)) pk) =
      (match kid.sub with
       | some w => (getAllPaths w (pre ++ String.mk a)).filter
           (specDotMatch (pre.data ++ (a ++ m)) pk)
       | none => []) := by
  cases hsub : kid.sub with
  | none =>
      rw [blockOf, hsub, List.filter_cons,
        (entry_selfbase_rej pre a m pk kid hsep).2]
      rfl
  | some w =>
      rw [blockOf, hsub, List.filter_cons,
        (entry_selfbase_rej pre a m pk kid hsep).2, hsep,
        if_neg Bool.false_ne_true]

/-- Filtering the concatenated blocks keeps only the (unique) kid whose
separator is the next base-path segment, and there only its subtree. -/
theorem filter_blocks_find (pre : String) (a : List Char)
    (F : AutocompleteSuggestion → Bool) :
    ∀ kids : List Kid,
      kids.Pairwise (fun x y => x.sep ≠ y.sep) →
      (∀ kid ∈ kids, kid.sep ≠ a → (blockOf pre kid).filter F = []) →
      (∀ kid ∈ kids, kid.sep = a → (blockOf pre kid).filter F =
        (match kid.sub with
         | some w => (getAllPaths w (pre ++ String.mk a)).filter F
         | none => [])) →
      (kids.flatMap (blockOf pre)).filter F =
        (match kids.find? (fun kid => kid.sep == a) with
         | some kid =>
             (match kid.sub with
              | some w => (getAllPaths w (pre ++ String.mk a)).filter F
              | none => [])
         | none => []) := by
  intro kids
  induction kids with
  | nil => intro _ _ _; rfl
  | cons kid kids ih =>
      intro hpw hr he
      rw [List.flatMap_cons, List.filter_append]
      by_cases hk : kid.sep = a
      · rw [List.find?_cons_of_pos _ (by simp [hk])]
        rw [he kid (List.mem_cons_self _ _) hk]
        have hrest : (kids.flatMap (blockOf pre)).filter F = [] := by
          rw [filter_flatMap]
          rw [flatMap_congr _ (fun _ => []) kids (by
            intro k2 h2
            apply hr k2 (List.mem_cons_of_mem _ h2)
            intro hcon
            exact ((List.pairwise_cons.mp hpw).1 k2 h2) (by rw [hk, hcon]))]
          simp
        rw [hrest, List.append_nil]
      · rw [List.find?_cons_of_neg _ (by simp [hk])]
        rw [hr kid (List.mem_cons_self _ _) hk, List.nil_append]
        exact ih (List.pairwise_cons.mp hpw).2
          (fun k2 h2 => hr k2 (List.mem_cons_of_mem _ h2))
          (fun k2 h2 => he k2 (List.mem_cons_of_mem _ h2))

/-- Main correspondence: over a good document, for every rendered base path
and identifier-shaped partial key, the source dot-notation pipeline computes
exactly the spec-side candidate list. -/
theorem dotCands_core (segs : List PSeg) :
    ∀ (v : JVal) (pre : String) (pk : List Char),
      goodDoc v = true → segs.all segGood = true → pkOk pk = true →
      dotDedup (pre.data ++ renderSegs segs)
          ((getAllPaths v pre).filter
            (dotFilter (pre.data ++ renderSegs segs) pk)) =
        specDotCands (pre.data ++ renderSegs segs) pk (getAllPaths v pre) := by
  induction segs with
  | nil =>
      intro v pre pk hv _ hpk
      have h := scenarioA v pre pk hv hpk
      simp only [show renderSegs [] = [] from rfl, List.append_nil]
      rw [h.1, h.2]
  | cons seg rest ih =>
      intro v pre pk hv hsegs hpk
      rw [List.all_cons, Bool.and_eq_true] at hsegs
      have hat : atomicSep (renderSeg seg) := renderSeg_atomic seg hsegs.1
      have hsh : tailShaped (renderSegs rest) := renderSegs_shaped rest
      have hseps := kid_seps_nodup v hv
      rw [show renderSegs (seg :: rest) = renderSeg seg ++ renderSegs rest
        from rfl]
      rw [getAllPaths_eq]
      unfold specDotCands
      rw [filter_blocks_find pre (renderSeg seg) _ (kidsOf v) hseps
        (fun kid hkid hne => List.filter_eq_nil_iff.mpr (fun s hs => by
          rw [dotFilter_mismatch pre (renderSeg seg) (renderSegs rest) pk kid
            hat (kid_atomic v kid hv hkid) (fun hc => hne hc.symm) hsh s hs]
          exact Bool.noConfusion))
        (fun kid hkid hsep =>
          blockOf_selfbase_dot pre (renderSeg seg) (renderSegs rest) pk kid
            hsep)]
      rw [filter_blocks_find pre (renderSeg seg) _ (kidsOf v) hseps
        (fun kid hkid hne => List.filter_eq_nil_iff.mpr (fun s hs => by
          rw [specDotMatch_mismatch pre (renderSeg seg) (renderSegs rest) pk
            kid hat (kid_atomic v kid hv hkid) (fun hc => hne hc.symm) hsh s hs]
          exact Bool.noConfusion))
        (fun kid hkid hsep =>
          blockOf_selfbase_spec pre (renderSeg seg) (renderSegs rest) pk kid
            hsep)]
      cases hf : (kidsOf v).find? (fun kid => kid.sep == renderSeg seg) with
      | none => rfl
      | some kid =>
          dsimp only
          cases hsub : kid.sub with
          | none => rfl
          | some w =>
              have hkm : kid ∈ kidsOf v := List.mem_of_find?_eq_some hf
              have hvw : goodDoc w = true := kid_sub_good v kid w hv hkm hsub
              have hbase : pre.data ++ (renderSeg seg ++ renderSegs rest) =
                  (pre ++ String.mk (renderSeg seg)).data ++ renderSegs rest := by
                rw [String.data_append]
                simp [List.append_assoc]
              rw [hbase]
              have := ih w (pre ++ String.mk (renderSeg seg)) pk hvw hsegs.2 hpk
              rw [this]
              unfold specDotCands
              rfl

end Autocomplete

namespace Autocomplete

set_option maxRecDepth 1000000 in
/-- C5 (amended): over documents whose object keys are unique single-segment
keys, for every base path rendered from the context pattern's segments and
every identifier-shaped partial key, the dot-notation candidate list is
exactly the spec-side set: the indexed paths with the base as a strict
prefix that are immediate children (one more segment) whose child segment
case-insensitively prefix-matches the partial identifier (partial numeric
prefix for indices), deduplicated by immediate child key keeping the first;
on the reference document, `data.user.` offers the candidate `name` only. -/
theorem c5_dot_candidates (v : JVal) (pre : String) (segs : List PSeg)
    (pk : List Char) (hv : goodDoc v = true)
    (hsegs : segs.all segGood = true) (hpk : pkOk pk = true) :
    dotDedup (pre.data ++ renderSegs segs)
        ((getAllPaths v pre).filter
          (dotFilter (pre.data ++ renderSegs segs) pk)) =
      specDotCands (pre.data ++ renderSegs segs) pk (getAllPaths v pre) ∧
    (findSuggestions refDoc "data.user." 10 {}).suggestions.map
      (fun s => s.displayPath) = ["name"] ∧
    (findSuggestions refDoc "data.user." 10 {}).suggestions.map
      (fun s => s.path) = ["data.user.name"] :=
  ⟨dotCands_core segs v pre pk hv hsegs hpk, by decide, by decide⟩

set_option maxRecDepth 1000000 in
/-- Witness for `c5_dot_candidates`: the reference document, base path
`data.user`, empty partial key. -/
theorem c5_dot_candidates_witness :
    (goodDoc (JVal.jobj
      [("user", JVal.jobj [("name", JVal.jstr "John")]),
       ("posts", JVal.jarr
         [JVal.jobj [("id", JVal.jnum 1), ("title", JVal.jstr "A")],
          JVal.jobj [("id", JVal.jnum 2), ("title", JVal.jstr "B")]])]) = true ∧
     ([PSeg.key "user"].all segGood) = true ∧ pkOk [] = true) ∧
    dotDedup (("data" : String).data ++ renderSegs [PSeg.key "user"])
        ((getAllPaths (JVal.jobj
          [("user", JVal.jobj [("name", JVal.jstr "John")]),
           ("posts", JVal.jarr
             [JVal.jobj [("id", JVal.jnum 1), ("title", JVal.jstr "A")],
              JVal.jobj [("id", JVal.jnum 2), ("title", JVal.jstr "B")]])])
          "data").filter
          (dotFilter (("data" : String).data ++ renderSegs [PSeg.key "user"])
            [])) =
      specDotCands (("data" : String).data ++ renderSegs [PSeg.key "user"]) []
        (getAllPaths (JVal.jobj
          [("user", JVal.jobj [("name", JVal.jstr "John")]),
           ("posts", JVal.jarr
             [JVal.jobj [("id", JVal.jnum 1), ("title", JVal.jstr "A")],
              JVal.jobj [("id", JVal.jnum 2), ("title", JVal.jstr "B")]])])
          "data") :=
  ⟨⟨by decide, by decide, by decide⟩,
   (c5_dot_candidates (JVal.jobj
      [("user", JVal.jobj [("name", JVal.jstr "John")]),
       ("posts", JVal.jarr
         [JVal.jobj [("id", JVal.jnum 1), ("title", JVal.jstr "A")],
          JVal.jobj [("id", JVal.jnum 2), ("title", JVal.jstr "B")]])])
      "data" [PSeg.key "user"] [] (by decide) (by decide) (by decide)).1⟩

set_option maxRecDepth 1000000 in
/-- C5 counterexample: over the document `\x7b "a.b": 1 \x7d` (a dotted key)
the only indexed path is `data.a.b`; with buffer `data.` the engine offers
the candidate `data.a` — not an indexed path, and not an immediate child in
the spec's sense (the spec-side candidate set is empty), refuting the claim
for arbitrary documents. -/
theorem c5_dotted_key_counterexample :
    (allPathsOf docB).map (fun s => s.path) = ["data.a.b"] ∧
    (findSuggestions docB "data." 5 {}).suggestions.map
      (fun s => s.path) = ["data.a"] ∧
    (findSuggestions docB "data." 5 {}).isOpen = true ∧
    specDotCands ("data" : String).data [] (allPathsOf docB) = [] :=
  ⟨by decide, by decide, by decide, rfl⟩

end Autocomplete
